import Mathlib

/-!
Verification of the davsync specification against the program.

The repository currently ships a single CLI front end (src/main.rs): it parses
a `source` path, a `target` path and a count of `verbose` flags, selects a
global verbosity level and prints an announcement.  The specification also
designs the missing synchronization engine (walker, differ, planner, executor,
reporter).  The CLI part is embedded below directly from the Rust source; the
engine components carry doc comments beginning `Modelled from the spec:` and
are shallow embeddings of the corresponding sections of the design document.
-/

namespace Davsync

/-! ### CLI front end, embedded from src/main.rs -/

/-- Verbosity levels of the `verbosity` crate used by main.rs; the source
spells the quietest level `Quite`. -/
inductive Verbosity where
  | Quite
  | Terse
  | Verbose
deriving DecidableEq

/-- Embeds the `match matches.occurrences_of("verbose")` expression of
src/main.rs lines 12–16: `0 => Quite, 1 => Terse, 2 | _ => Verbose`. -/
def verbosityFor : Nat → Verbosity
  | 0 => .Quite
  | 1 => .Terse
  | _ => .Verbose

/-- Relative path of an entry: its sequence of path segments.  Segments are
drawn from a totally ordered alphabet of names, modelled by `Nat`. -/
abbrev Path := List Nat

/-- Kind of a filesystem entry. -/
inductive EntryKind where
  | file
  | directory
  | symlink
deriving DecidableEq

/-- Modelled from the spec: the Entry metadata snapshot (§3) with its
relative-path key factored out.  `content` stands for the strong content
fingerprint of a file or the link target of a symlink. -/
structure EntryData where
  kind : EntryKind
  size : Nat
  content : Nat
  modified : Nat
  permissions : Nat
deriving DecidableEq

instance : Inhabited EntryData := ⟨⟨.file, 0, 0, 0, 0⟩⟩

/-- Snapshot of one side's tree: entries keyed by relative path, listed in
walk order (the walker yields paths in strictly increasing lexicographic
order). -/
abbrev Tree := List (Path × EntryData)

/-- State of the world visible to the CLI process: a filesystem snapshot and
the lines printed so far. -/
structure CliWorld where
  fs : Tree
  printed : List String
deriving DecidableEq

/-- Lines produced by the `reportln!` invocation of src/main.rs lines 18–21:
the terse message at `Terse`, the formatted message at `Verbose`, nothing at
`Quite`. -/
def reportLines (v : Verbosity) (source target : String) : List String :=
  match v with
  | .Quite => []
  | .Terse => ["Synchronizing…"]
  | .Verbose =>
      ["Sync from '" ++ source ++ "' to '" ++ target ++ "' with verbosity'"]

/-- Embeds the body of `main` (src/main.rs) after argument unwrapping:
select a verbosity from the `verbose` occurrence count, then print the
announcement.  No other effect is performed. -/
def mainRun (source target : String) (verboseCount : Nat) (w : CliWorld) :
    CliWorld :=
  { w with printed := w.printed ++ reportLines (verbosityFor verboseCount) source target }

/-- Result of running `main` on a parsed argument set: either a panic (from
`unwrap()` on a missing value) or a finished world. -/
inductive CliOutcome where
  | panicked
  | ran (w : CliWorld)
deriving DecidableEq

/-- Embeds `main` including lines 10–11: `matches.value_of("source").unwrap()`
and `matches.value_of("target").unwrap()`.  A missing optional value makes
`unwrap()` panic before anything else happens. -/
def mainChecked (sourceArg targetArg : Option String) (verboseCount : Nat)
    (w : CliWorld) : CliOutcome :=
  match sourceArg, targetArg with
  | some s, some t => .ran (mainRun s t verboseCount w)
  | _, _ => .panicked

/-! ### Path order -/

/-- Modelled from the spec: the strict lexicographic order on relative paths
used by the walker's stable sort and by the merge join of the differ
(§4.1, §4.3). -/
def pathLt : Path → Path → Bool
  | _, [] => false
  | [], _ :: _ => true
  | a :: as, b :: bs =>
      if a < b then true
      else if b < a then false
      else pathLt as bs

/-- Decides whether `d` is a proper ancestor of `p`, i.e. `p` lies strictly
inside the directory `d`. -/
def leadsTo : Path → Path → Bool
  | [], [] => false
  | [], _ :: _ => true
  | _ :: _, [] => false
  | a :: as, b :: bs => if a = b then leadsTo as bs else false

/-! ### Tree snapshots -/

/-- Looks up the entry recorded for a relative path. -/
def Tree.find : Tree → Path → Option EntryData
  | [], _ => none
  | (q, e) :: t, p => if p = q then some e else Tree.find t p

/-- Writes an entry at a path, keeping the sorted walk order. -/
def Tree.set : Tree → Path → EntryData → Tree
  | [], p, e => [(p, e)]
  | (q, f) :: t, p, e =>
      if pathLt q p then (q, f) :: Tree.set t p e
      else if p = q then (p, e) :: t
      else (p, e) :: (q, f) :: t

/-- Removes every record at a path. -/
def Tree.remove (t : Tree) (p : Path) : Tree :=
  t.filter (fun x => x.1 ≠ p)

/-- Walker invariant on a snapshot: paths appear in strictly increasing
lexicographic order (§4.1). -/
def sortedTree (t : Tree) : Prop :=
  t.Pairwise (fun a b => pathLt a.1 b.1 = true)

instance (t : Tree) : Decidable (sortedTree t) := by
  unfold sortedTree
  infer_instance

/-! ### Configuration, classification and diffing -/

/-- Modelled from the spec: the recognized configuration fields of
`synchronize` (§6). -/
structure Options where
  delete_extraneous : Bool := true
  strict_checksum : Bool := false
  fail_fast : Bool := false
  concurrency : Nat := 1
  time_tolerance : Nat := 1
deriving DecidableEq

/-- Absolute difference of two timestamps. -/
def distNat (a b : Nat) : Nat := max a b - min a b

/-- Modelled from the spec: two files are possibly-equal-by-metadata when
size and modification time match within the configured tolerance (§4.2). -/
def metaMatch (o : Options) (s t : EntryData) : Bool :=
  s.size == t.size && decide (distNat s.modified t.modified ≤ o.time_tolerance)

/-- Modelled from the spec: content-equality decision of the differ (§4.2).
Directories have no content; symlinks compare their targets; files compare
fingerprints in strict-checksum mode and are otherwise decided by metadata
alone (metadata mismatch means DifferInContent without hashing). -/
def contentSame (o : Options) (s t : EntryData) : Bool :=
  match s.kind with
  | .directory => true
  | .symlink => s.content == t.content
  | .file =>
      if o.strict_checksum then s.size == t.size && s.content == t.content
      else metaMatch o s t

/-- Modelled from the spec: full metadata agreement — size (for files),
timestamps within tolerance and permission bits (§4.2, §4.3). -/
def metadataSame (o : Options) (s t : EntryData) : Bool :=
  (s.kind != .file || s.size == t.size) &&
    decide (distNat s.modified t.modified ≤ o.time_tolerance) &&
    s.permissions == t.permissions

/-- Diff classification of one relative path across both trees (§3). -/
inductive Classification where
  | OnlyInSource
  | OnlyInTarget
  | EqualInBoth
  | DifferInType
  | DifferInContent
  | DifferInMetadataOnly
deriving DecidableEq

/-- Modelled from the spec: classification of a relative path as a pure
function of the two optional Entry snapshots at that path (§4.3). -/
def classify (o : Options) :
    Option EntryData → Option EntryData → Option Classification
  | none, none => none
  | some _, none => some .OnlyInSource
  | none, some _ => some .OnlyInTarget
  | some s, some t =>
      if s.kind = t.kind then
        if contentSame o s t then
          if metadataSame o s t then some .EqualInBoth
          else some .DifferInMetadataOnly
        else some .DifferInContent
      else some .DifferInType

/-- One merged row of the differ: a relative path together with the optional
source and target snapshots found there. -/
structure DiffItem where
  path : Path
  src : Option EntryData
  tgt : Option EntryData
deriving DecidableEq

instance : Inhabited DiffItem := ⟨⟨[], none, none⟩⟩

/-- Merge join worker: the first argument bounds the number of merge steps
still allowed, so that the recursion is structural. -/
def mergeAux : Nat → Tree → Tree → List DiffItem
  | 0, _, _ => []
  | _ + 1, [], [] => []
  | n + 1, [], (q, f) :: ts => ⟨q, none, some f⟩ :: mergeAux n [] ts
  | n + 1, (p, e) :: ss, [] => ⟨p, some e, none⟩ :: mergeAux n ss []
  | n + 1, (p, e) :: ss, (q, f) :: ts =>
      if pathLt p q then ⟨p, some e, none⟩ :: mergeAux n ss ((q, f) :: ts)
      else if pathLt q p then ⟨q, none, some f⟩ :: mergeAux n ((p, e) :: ss) ts
      else ⟨p, some e, some f⟩ :: mergeAux n ss ts

/-- Modelled from the spec: the single-pass merge join of the two sorted
entry sequences (§4.3), yielding one row per relative path appearing on
either side, ordered lexicographically.  Each merge step consumes at least
one entry, so the combined length bounds the number of steps. -/
def mergeItems (s t : Tree) : List DiffItem :=
  mergeAux (s.length + t.length) s t

/-! ### Change planner -/

/-- Filesystem operations of a Plan (§3). -/
inductive Operation where
  | CreateDirectory (path : Path) (data : EntryData)
  | CopyFile (path : Path) (data : EntryData)
  | UpdateFile (path : Path) (data : EntryData)
  | CreateSymlink (path : Path) (data : EntryData)
  | UpdateSymlink (path : Path) (data : EntryData)
  | SetPermissions (path : Path) (modified : Nat) (permissions : Nat)
  | DeleteFile (path : Path)
  | DeleteDirectory (path : Path)
deriving DecidableEq

/-- Target relative path owned by an operation. -/
def Operation.path : Operation → Path
  | .CreateDirectory p _ => p
  | .CopyFile p _ => p
  | .UpdateFile p _ => p
  | .CreateSymlink p _ => p
  | .UpdateSymlink p _ => p
  | .SetPermissions p _ _ => p
  | .DeleteFile p => p
  | .DeleteDirectory p => p

/-- Recognizes deletion operations. -/
def isDeleteOp : Operation → Bool
  | .DeleteFile _ => true
  | .DeleteDirectory _ => true
  | _ => false

/-- Creation operation matching the kind of a source entry (§4.4). -/
def mkCreateOp (p : Path) (e : EntryData) : Operation :=
  match e.kind with
  | .directory => .CreateDirectory p e
  | .file => .CopyFile p e
  | .symlink => .CreateSymlink p e

/-- Update operation matching the kind of a source entry (§4.4). -/
def mkUpdateOp (p : Path) (e : EntryData) : Operation :=
  match e.kind with
  | .symlink => .UpdateSymlink p e
  | _ => .UpdateFile p e

/-- Deletion operation matching the kind of a target entry (§4.4). -/
def mkDeleteOp (p : Path) (e : EntryData) : Operation :=
  match e.kind with
  | .directory => .DeleteDirectory p
  | _ => .DeleteFile p

/-- Modelled from the spec: the creation/update operation contributed by one
classified row (§4.4); `OnlyInTarget` and `EqualInBoth` rows contribute
none. -/
def createOpFor (o : Options) (it : DiffItem) : Option Operation :=
  match classify o it.src it.tgt, it.src with
  | some .OnlyInSource, some e => some (mkCreateOp it.path e)
  | some .DifferInType, some e => some (mkCreateOp it.path e)
  | some .DifferInContent, some e => some (mkUpdateOp it.path e)
  | some .DifferInMetadataOnly, some e =>
      some (.SetPermissions it.path e.modified e.permissions)
  | _, _ => none

/-- Modelled from the spec: the deletion operation contributed by one
classified row (§4.4); extraneous deletions are suppressed when
`delete_extraneous` is off. -/
def deleteOpFor (o : Options) (it : DiffItem) : Option Operation :=
  match classify o it.src it.tgt, it.tgt with
  | some .OnlyInTarget, some f =>
      if o.delete_extraneous then some (mkDeleteOp it.path f) else none
  | some .DifferInType, some f => some (mkDeleteOp it.path f)
  | _, _ => none

/-- Modelled from the spec: the ordered Plan (§4.4) — creations and updates
in forward (shallowest-first) path order, then deletions in reverse
(deepest-first) path order. -/
def planOps (o : Options) (items : List DiffItem) : List Operation :=
  items.filterMap (createOpFor o) ++ (items.filterMap (deleteOpFor o)).reverse

/-- Result recorded for one operation in the Run Outcome (§3). -/
inductive OpResult where
  | Succeeded
  | Failed
  | Skipped
deriving DecidableEq

/-- Modelled from the spec: deletions suppressed by `--no-delete` are
recorded as Skipped instead of being executed (§4.4). -/
def suppressedRecords (o : Options) (items : List DiffItem) :
    List (Operation × OpResult) :=
  items.filterMap (fun it =>
    match classify o it.src it.tgt, it.tgt with
    | some .OnlyInTarget, some f =>
        if o.delete_extraneous then none
        else some (mkDeleteOp it.path f, OpResult.Skipped)
    | _, _ => none)

/-! ### Executor -/

/-- Modelled from the spec: effect of one operation on the entry stored at
its own path; `none` is an operation failure (creation over an existing
entry, update or deletion of a missing or wrongly-kinded entry). -/
def applyAt (cur : Option EntryData) : Operation → Option (Option EntryData)
  | .CreateDirectory _ e =>
      match cur with
      | none => some (some e)
      | some _ => none
  | .CopyFile _ e =>
      match cur with
      | none => some (some e)
      | some _ => none
  | .CreateSymlink _ e =>
      match cur with
      | none => some (some e)
      | some _ => none
  | .UpdateFile _ e =>
      match cur with
      | some old => if old.kind = .file then some (some e) else none
      | none => none
  | .UpdateSymlink _ e =>
      match cur with
      | some old => if old.kind = .symlink then some (some e) else none
      | none => none
  | .SetPermissions _ m pm =>
      match cur with
      | some old => some (some { old with modified := m, permissions := pm })
      | none => none
  | .DeleteFile _ =>
      match cur with
      | some old => if old.kind = .directory then none else some none
      | none => none
  | .DeleteDirectory _ =>
      match cur with
      | some old => if old.kind = .directory then some none else none
      | none => none

/-- Folds `applyAt` along a list of operations at one fixed path, failing as
soon as one operation fails; the per-path view of sequential execution. -/
def applyChain : Option EntryData → List Operation → Option (Option EntryData)
  | cur, [] => some cur
  | cur, op :: rest =>
      match applyAt cur op with
      | some v => applyChain v rest
      | none => none

/-- Executes one operation against the target tree; every operation touches
only its own relative path. -/
def execOp (t : Tree) (op : Operation) : Option Tree :=
  (applyAt (t.find op.path) op).map (fun v =>
    match v with
    | some e => t.set op.path e
    | none => t.remove op.path)

/-- Counts down the number of operations that may still be dispatched before
a pending cancellation takes effect. -/
def decFuel : Option Nat → Option Nat
  | some (n + 1) => some n
  | some 0 => some 0
  | none => none

/-- Modelled from the spec: sequential execution of the Plan (§4.5).  Each
operation is attempted independently and its result recorded; after a
cancellation (`fuel` exhausted) or, under `fail_fast`, after the first
failure, the remaining operations are recorded as Skipped instead of being
dispatched. -/
def execOps (o : Options) :
    Option Nat → Bool → Tree → List Operation →
      Tree × List (Operation × OpResult)
  | _, _, t, [] => (t, [])
  | fuel, failed, t, op :: rest =>
      if fuel = some 0 ∨ (o.fail_fast = true ∧ failed = true) then
        let r := execOps o (decFuel fuel) failed t rest
        (r.1, (op, OpResult.Skipped) :: r.2)
      else
        match execOp t op with
        | some t2 =>
            let r := execOps o (decFuel fuel) failed t2 rest
            (r.1, (op, OpResult.Succeeded) :: r.2)
        | none =>
            let r := execOps o (decFuel fuel) true t rest
            (r.1, (op, OpResult.Failed) :: r.2)

/-- Modelled from the spec: the Run Outcome — per-operation records plus the
access-denied entries surfaced as warnings (§3, §7). -/
structure RunOutcome where
  records : List (Operation × OpResult)
  denied : List Path
deriving DecidableEq

/-- Modelled from the spec: one full engine run over two walked trees —
diff, plan, execute — with an optional cancellation point and the recorded
access-denied paths of both walks (§2, §5). -/
def runEngine (o : Options) (fuel : Option Nat) (src tgt : Tree)
    (deniedSrc deniedTgt : List Path) : Tree × RunOutcome :=
  let items := mergeItems src tgt
  let r := execOps o fuel false tgt (planOps o items)
  (r.1, ⟨r.2 ++ suppressedRecords o items, deniedSrc ++ deniedTgt⟩)

/-- Modelled from the spec: `synchronize(source_root, target_root, options)`
(§6) on two successfully walked roots, with no cancellation. -/
def synchronize (o : Options) (src tgt : Tree) : Tree × RunOutcome :=
  runEngine o none src tgt [] []

/-- Fatal errors that abort a run before planning (§7). -/
inductive SyncError where
  | RootNotFound
deriving DecidableEq

/-- Modelled from the spec: the engine boundary including the fatal
`RootNotFound` check — a missing root halts the whole run before any
operation (§7). -/
def synchronizeR (o : Options) (fuel : Option Nat)
    (srcRoot tgtRoot : Option Tree) (deniedSrc deniedTgt : List Path) :
    Except SyncError (Tree × RunOutcome) :=
  match srcRoot, tgtRoot with
  | some s, some t => .ok (runEngine o fuel s t deniedSrc deniedTgt)
  | _, _ => .error .RootNotFound

/-- Holds when no record of the outcome is a failure. -/
def noFailed (recs : List (Operation × OpResult)) : Prop :=
  ∀ r ∈ recs, r.2 ≠ OpResult.Failed

instance (recs : List (Operation × OpResult)) : Decidable (noFailed recs) := by
  unfold noFailed
  infer_instance

/-- Number of records that are not skips. -/
def countNonSkip (recs : List (Operation × OpResult)) : Nat :=
  (recs.filter (fun r =>
    match r.2 with
    | .Skipped => false
    | _ => true)).length

/-! ### Atomic file copy (§4.5) -/

/-- Micro-steps of one file copy: create the temporary file alongside the
destination, stream the content into it chunk by chunk, then rename it into
place after the full, verified write. -/
inductive CopyStep where
  | createTemp
  | writeChunk (c : Nat)
  | renameIntoPlace
deriving DecidableEq

/-- Modelled from the spec: the step sequence of a copy/update of a file
whose content is the given chunk list (§4.5). -/
def copySteps (chunks : List Nat) : List CopyStep :=
  .createTemp :: (chunks.map CopyStep.writeChunk ++ [.renameIntoPlace])

/-- Destination path and temporary path contents during one copy. -/
structure CopyFs where
  dest : Option (List Nat)
  temp : Option (List Nat)
deriving DecidableEq

/-- Effect of one copy micro-step; only the final rename touches the
destination path. -/
def stepFs (fs : CopyFs) : CopyStep → CopyFs
  | .createTemp => { fs with temp := some [] }
  | .writeChunk c => { fs with temp := fs.temp.map (fun l => l ++ [c]) }
  | .renameIntoPlace => { dest := fs.temp, temp := none }

/-- Every filesystem state reachable during the copy, including the initial
one; an interrupted copy stops in one of these states. -/
def copyTrace (orig : Option (List Nat)) (chunks : List Nat) : List CopyFs :=
  List.scanl stepFs ⟨orig, none⟩ (copySteps chunks)

/-- Final state of an uninterrupted copy. -/
def copyResult (orig : Option (List Nat)) (chunks : List Nat) : CopyFs :=
  List.foldl stepFs ⟨orig, none⟩ (copySteps chunks)

end Davsync

namespace Davsync

/-! ### Path order lemmas -/

theorem pathLt_irrefl : ∀ p : Path, pathLt p p = false := by
  intro p
  induction p with
  | nil => rfl
  | cons a as ih =>
      simp [pathLt, lt_irrefl, ih]

theorem pathLt_asymm : ∀ p q : Path, pathLt p q = true → pathLt q p = false := by
  intro p
  induction p with
  | nil =>
      intro q h
      cases q with
      | nil => simp [pathLt] at h
      | cons b bs => rfl
  | cons a as ih =>
      intro q h
      cases q with
      | nil => simp [pathLt] at h
      | cons b bs =>
          by_cases hab : a < b
          · have hba : ¬ b < a := lt_asymm hab
            simp [pathLt, hba, hab]
          · by_cases hba : b < a
            · simp [pathLt, hab, hba] at h
            · have : pathLt as bs = true := by simpa [pathLt, hab, hba] using h
              simp [pathLt, hab, hba, ih bs this]

theorem pathLt_trans :
    ∀ p q r : Path, pathLt p q = true → pathLt q r = true → pathLt p r = true := by
  intro p
  induction p with
  | nil =>
      intro q r hpq hqr
      cases q with
      | nil => simp [pathLt] at hpq
      | cons b bs =>
          cases r with
          | nil => simp [pathLt] at hqr
          | cons c cs => rfl
  | cons a as ih =>
      intro q r hpq hqr
      cases q with
      | nil => simp [pathLt] at hpq
      | cons b bs =>
          cases r with
          | nil => simp [pathLt] at hqr
          | cons c cs =>
              by_cases hab : a < b
              · by_cases hbc : b < c
                · have hac : a < c := lt_trans hab hbc
                  simp [pathLt, hac]
                · by_cases hcb : c < b
                  · simp [pathLt, hbc, hcb] at hqr
                  · have hbc' : b = c := le_antisymm (not_lt.mp hcb) (not_lt.mp hbc)
                    subst hbc'
                    simp [pathLt, hab]
              · by_cases hba : b < a
                · simp [pathLt, hab, hba] at hpq
                · have hab' : a = b := le_antisymm (not_lt.mp hba) (not_lt.mp hab)
                  subst hab'
                  have has : pathLt as bs = true := by simpa [pathLt, lt_irrefl] using hpq
                  by_cases hbc : a < c
                  · simp [pathLt, hbc]
                  · by_cases hcb : c < a
                    · simp [pathLt, hbc, hcb] at hqr
                    · have hbc' : a = c := le_antisymm (not_lt.mp hcb) (not_lt.mp hbc)
                      subst hbc'
                      have hbs : pathLt bs cs = true := by
                        simpa [pathLt, lt_irrefl] using hqr
                      simp [pathLt, lt_irrefl, ih bs cs has hbs]

theorem pathLt_eq_of_not_lt :
    ∀ p q : Path, pathLt p q = false → pathLt q p = false → p = q := by
  intro p
  induction p with
  | nil =>
      intro q hpq hqp
      cases q with
      | nil => rfl
      | cons b bs => simp [pathLt] at hpq
  | cons a as ih =>
      intro q hpq hqp
      cases q with
      | nil => simp [pathLt] at hqp
      | cons b bs =>
          rcases lt_trichotomy a b with hab | hab | hab
          · simp [pathLt, hab] at hpq
          · subst hab
            have h1 : pathLt as bs = false := by simpa [pathLt, lt_irrefl] using hpq
            have h2 : pathLt bs as = false := by simpa [pathLt, lt_irrefl] using hqp
            rw [ih bs h1 h2]
          · simp [pathLt, hab] at hqp

theorem leadsTo_pathLt : ∀ d p : Path, leadsTo d p = true → pathLt d p = true := by
  intro d
  induction d with
  | nil =>
      intro p h
      cases p with
      | nil => simp [leadsTo] at h
      | cons b bs => rfl
  | cons a as ih =>
      intro p h
      cases p with
      | nil => simp [leadsTo] at h
      | cons b bs =>
          by_cases hab : a = b
          · subst hab
            have h' : leadsTo as bs = true := by simpa [leadsTo] using h
            simp [pathLt, lt_irrefl, ih bs h']
          · simp [leadsTo, hab] at h

theorem leadsTo_irrefl (p : Path) : leadsTo p p = false := by
  cases h : leadsTo p p with
  | false => rfl
  | true =>
      have := leadsTo_pathLt p p h
      rw [pathLt_irrefl] at this
      exact absurd this (by simp)

/-! ### Tree lemmas -/

theorem Tree.find_set_self (t : Tree) (p : Path) (e : EntryData) :
    (t.set p e).find p = some e := by
  induction t with
  | nil => simp [Tree.set, Tree.find]
  | cons hd tl ih =>
      obtain ⟨q, f⟩ := hd
      by_cases hq : pathLt q p
      · have hpq : ¬ p = q := by
          intro h
          subst h
          rw [pathLt_irrefl] at hq
          exact absurd hq (by simp)
        simp [Tree.set, hq, Tree.find, hpq, ih]
      · by_cases hpq : p = q
        · subst hpq
          simp [Tree.set, pathLt_irrefl, Tree.find]
        · simp [Tree.set, hq, hpq, Tree.find]

theorem Tree.find_set_ne (t : Tree) (p r : Path) (e : EntryData) (hr : r ≠ p) :
    (t.set p e).find r = t.find r := by
  induction t with
  | nil => simp [Tree.set, Tree.find, hr]
  | cons hd tl ih =>
      obtain ⟨q, f⟩ := hd
      by_cases hq : pathLt q p
      · by_cases hrq : r = q
        · simp [Tree.set, hq, Tree.find, hrq]
        · simp [Tree.set, hq, Tree.find, hrq, ih]
      · by_cases hpq : p = q
        · subst hpq
          simp [Tree.set, hq, Tree.find, hr]
        · simp [Tree.set, hq, hpq, Tree.find, hr]

theorem Tree.find_remove_self (t : Tree) (p : Path) :
    (t.remove p).find p = none := by
  induction t with
  | nil => rfl
  | cons hd tl ih =>
      obtain ⟨q, f⟩ := hd
      by_cases hpq : q = p
      · simp [Tree.remove, List.filter, hpq] at ih ⊢
        exact ih
      · have hne : ¬ p = q := fun h => hpq h.symm
        simp [Tree.remove, List.filter, hpq, Tree.find, hne] at ih ⊢
        exact ih

theorem Tree.find_remove_ne (t : Tree) (p r : Path) (hr : r ≠ p) :
    (t.remove p).find r = t.find r := by
  induction t with
  | nil => rfl
  | cons hd tl ih =>
      obtain ⟨q, f⟩ := hd
      by_cases hpq : q = p
      · subst hpq
        have hne : ¬ r = q := hr
        simp [Tree.remove, List.filter, Tree.find, hne] at ih ⊢
        exact ih
      · by_cases hrq : r = q
        · simp [Tree.remove, List.filter, hpq, Tree.find, hrq]
        · simp [Tree.remove, List.filter, hpq, Tree.find, hrq] at ih ⊢
          exact ih

theorem Tree.mem_set (t : Tree) (p : Path) (e : EntryData) :
    ∀ x ∈ t.set p e, x ∈ t ∨ x.1 = p := by
  induction t with
  | nil =>
      intro x hx
      simp [Tree.set] at hx
      subst hx
      exact Or.inr rfl
  | cons hd tl ih =>
      obtain ⟨q, f⟩ := hd
      intro x hx
      by_cases hq : pathLt q p
      · simp [Tree.set, hq] at hx
        rcases hx with hx | hx
        · exact Or.inl (by simp [hx])
        · rcases ih x hx with h | h
          · exact Or.inl (List.mem_cons_of_mem _ h)
          · exact Or.inr h
      · by_cases hpq : p = q
        · subst hpq
          simp [Tree.set, pathLt_irrefl] at hx
          rcases hx with hx | hx
          · exact Or.inr (by simp [hx])
          · exact Or.inl (List.mem_cons_of_mem _ hx)
        · simp [Tree.set, hq, hpq] at hx
          rcases hx with hx | hx | hx
          · exact Or.inr (by simp [hx])
          · exact Or.inl (by simp [hx])
          · exact Or.inl (List.mem_cons_of_mem _ hx)

theorem Tree.set_sorted (t : Tree) (p : Path) (e : EntryData)
    (h : sortedTree t) : sortedTree (t.set p e) := by
  induction t with
  | nil => simp [Tree.set, sortedTree]
  | cons hd tl ih =>
      obtain ⟨q, f⟩ := hd
      rw [sortedTree, List.pairwise_cons] at h
      obtain ⟨hhead, htail⟩ := h
      by_cases hq : pathLt q p
      · have hs := ih htail
        rw [Tree.set]
        simp only [hq, if_true]
        rw [sortedTree, List.pairwise_cons]
        refine ⟨?_, hs⟩
        intro x hx
        rcases Tree.mem_set tl p e x hx with hmem | hp
        · exact hhead x hmem
        · rw [hp]; exact hq
      · by_cases hpq : p = q
        · subst hpq
          rw [Tree.set, if_neg (by simp [pathLt_irrefl]), if_pos rfl]
          rw [sortedTree, List.pairwise_cons]
          exact ⟨hhead, htail⟩
        · rw [Tree.set, if_neg hq, if_neg hpq]
          have hplt : pathLt p q = true := by
            cases hcase : pathLt p q with
            | true => rfl
            | false =>
                have hqp : pathLt q p = false := by
                  cases hqp : pathLt q p with
                  | false => rfl
                  | true => exact absurd hqp (by simp [hq])
                exact absurd (pathLt_eq_of_not_lt p q hcase hqp) hpq
          rw [sortedTree, List.pairwise_cons]
          constructor
          · intro x hx
            rcases List.mem_cons.mp hx with hx | hx
            · rw [hx]; exact hplt
            · exact pathLt_trans _ _ _ hplt (hhead x hx)
          · exact List.pairwise_cons.mpr ⟨hhead, htail⟩

theorem Tree.remove_sorted (t : Tree) (p : Path) (h : sortedTree t) :
    sortedTree (t.remove p) :=
  h.sublist (List.filter_sublist t)

/-! ### Merge join lemmas -/

theorem ne_of_pathLt {p q : Path} (h : pathLt p q = true) : ¬ q = p := by
  intro hh
  rw [hh, pathLt_irrefl] at h
  cases h

theorem Tree.find_cons_ne (q : Path) (f : EntryData) (t : Tree) (p : Path)
    (h : ¬ p = q) : Tree.find ((q, f) :: t) p = Tree.find t p := by
  rw [Tree.find, if_neg h]

theorem Tree.find_eq_none (t : Tree) (p : Path) (h : ∀ x ∈ t, ¬ x.1 = p) :
    t.find p = none := by
  induction t with
  | nil => rfl
  | cons hd tl ih =>
      obtain ⟨q, f⟩ := hd
      have hne : ¬ p = q := fun hh =>
        h (q, f) (List.mem_cons_self _ _) hh.symm
      rw [Tree.find_cons_ne _ _ _ _ hne]
      exact ih fun x hx => h x (List.mem_cons_of_mem _ hx)

theorem mergeAux_path_mem : ∀ (fuel : Nat) (s t : Tree),
    ∀ it ∈ mergeAux fuel s t,
      (it.path ∈ s.map Prod.fst) ∨ (it.path ∈ t.map Prod.fst) := by
  intro fuel s t
  induction fuel, s, t using mergeAux.induct with
  | case1 s t =>
      intro it h
      rw [mergeAux] at h
      cases h
  | case2 n =>
      intro it h
      rw [mergeAux] at h
      cases h
  | case3 n q f ts ih =>
      intro it h
      rw [mergeAux] at h
      rcases List.mem_cons.mp h with h | h
      · subst h; exact Or.inr (by simp)
      · rcases ih it h with h | h
        · simp at h
        · exact Or.inr (by simp only [List.map_cons]; exact List.mem_cons_of_mem _ h)
  | case4 n p e ss ih =>
      intro it h
      rw [mergeAux] at h
      rcases List.mem_cons.mp h with h | h
      · subst h; exact Or.inl (by simp)
      · rcases ih it h with h | h
        · exact Or.inl (by simp only [List.map_cons]; exact List.mem_cons_of_mem _ h)
        · simp at h
  | case5 n p e ss q f ts hlt ih =>
      intro it h
      rw [mergeAux, if_pos hlt] at h
      rcases List.mem_cons.mp h with h | h
      · subst h; exact Or.inl (by simp)
      · rcases ih it h with h | h
        · exact Or.inl (by simp only [List.map_cons]; exact List.mem_cons_of_mem _ h)
        · exact Or.inr h
  | case6 n p e ss q f ts hlt hlt2 ih =>
      intro it h
      rw [mergeAux, if_neg hlt, if_pos hlt2] at h
      rcases List.mem_cons.mp h with h | h
      · subst h; exact Or.inr (by simp)
      · rcases ih it h with h | h
        · exact Or.inl h
        · exact Or.inr (by simp only [List.map_cons]; exact List.mem_cons_of_mem _ h)
  | case7 n p e ss q f ts hlt hlt2 ih =>
      intro it h
      rw [mergeAux, if_neg hlt, if_neg hlt2] at h
      rcases List.mem_cons.mp h with h | h
      · subst h; exact Or.inl (by simp)
      · rcases ih it h with h | h
        · exact Or.inl (by simp only [List.map_cons]; exact List.mem_cons_of_mem _ h)
        · exact Or.inr (by simp only [List.map_cons]; exact List.mem_cons_of_mem _ h)

theorem mergeItems_path_mem (s t : Tree) : ∀ it ∈ mergeItems s t,
    (it.path ∈ s.map Prod.fst) ∨ (it.path ∈ t.map Prod.fst) :=
  mergeAux_path_mem (s.length + t.length) s t

theorem keys_gt_of_mergeAux (p0 : Path) {fuel : Nat} {a b : Tree}
    (ha : ∀ x ∈ a, pathLt p0 x.1 = true) (hb : ∀ x ∈ b, pathLt p0 x.1 = true) :
    ∀ it ∈ mergeAux fuel a b, pathLt p0 it.path = true := by
  intro it h
  rcases mergeAux_path_mem fuel a b it h with hm | hm
  · obtain ⟨x, hx, hxe⟩ := List.mem_map.mp hm
    rw [← hxe]
    exact ha x hx
  · obtain ⟨x, hx, hxe⟩ := List.mem_map.mp hm
    rw [← hxe]
    exact hb x hx

theorem mergeAux_spec : ∀ (fuel : Nat) (s t : Tree),
    sortedTree s → sortedTree t →
    ∀ it ∈ mergeAux fuel s t,
      it.src = Tree.find s it.path ∧ it.tgt = Tree.find t it.path ∧
        (it.src ≠ none ∨ it.tgt ≠ none) := by
  intro fuel s t
  induction fuel, s, t using mergeAux.induct with
  | case1 s t =>
      intro _ _ it h
      rw [mergeAux] at h
      cases h
  | case2 n =>
      intro _ _ it h
      rw [mergeAux] at h
      cases h
  | case3 n q f ts ih =>
      intro hs ht it h
      rw [mergeAux] at h
      rw [sortedTree, List.pairwise_cons] at ht
      obtain ⟨hheadT, htailT⟩ := ht
      rcases List.mem_cons.mp h with h | h
      · subst h
        refine ⟨rfl, ?_, by simp⟩
        rw [Tree.find, if_pos rfl]
      · obtain ⟨h1, h2, h3⟩ := ih hs htailT it h
        have hgt := keys_gt_of_mergeAux q (a := ([] : Tree)) (b := ts)
          (by intro x hx; simp at hx) hheadT it h
        refine ⟨h1, ?_, h3⟩
        rw [Tree.find_cons_ne _ _ _ _ (ne_of_pathLt hgt)]
        exact h2
  | case4 n p e ss ih =>
      intro hs ht it h
      rw [mergeAux] at h
      rw [sortedTree, List.pairwise_cons] at hs
      obtain ⟨hheadS, htailS⟩ := hs
      rcases List.mem_cons.mp h with h | h
      · subst h
        refine ⟨?_, rfl, by simp⟩
        rw [Tree.find, if_pos rfl]
      · obtain ⟨h1, h2, h3⟩ := ih htailS ht it h
        have hgt := keys_gt_of_mergeAux p (a := ss) (b := ([] : Tree))
          hheadS (by intro x hx; simp at hx) it h
        refine ⟨?_, h2, h3⟩
        rw [Tree.find_cons_ne _ _ _ _ (ne_of_pathLt hgt)]
        exact h1
  | case5 n p e ss q f ts hlt ih =>
      intro hs ht it h
      rw [mergeAux, if_pos hlt] at h
      rw [sortedTree, List.pairwise_cons] at hs ht
      obtain ⟨hheadS, htailS⟩ := hs
      obtain ⟨hheadT, htailT⟩ := ht
      have hb : ∀ x ∈ (q, f) :: ts, pathLt p x.1 = true := by
        intro x hx
        rcases List.mem_cons.mp hx with hx | hx
        · subst hx; exact hlt
        · exact pathLt_trans _ _ _ hlt (hheadT x hx)
      rcases List.mem_cons.mp h with h | h
      · subst h
        refine ⟨?_, ?_, by simp⟩
        · rw [Tree.find, if_pos rfl]
        · symm
          exact Tree.find_eq_none _ _ fun x hx => ne_of_pathLt (hb x hx)
      · obtain ⟨h1, h2, h3⟩ := ih htailS (List.pairwise_cons.mpr ⟨hheadT, htailT⟩) it h
        have hgt := keys_gt_of_mergeAux p hheadS hb it h
        refine ⟨?_, h2, h3⟩
        rw [Tree.find_cons_ne _ _ _ _ (ne_of_pathLt hgt)]
        exact h1
  | case6 n p e ss q f ts hlt hlt2 ih =>
      intro hs ht it h
      rw [mergeAux, if_neg hlt, if_pos hlt2] at h
      rw [sortedTree, List.pairwise_cons] at hs ht
      obtain ⟨hheadS, htailS⟩ := hs
      obtain ⟨hheadT, htailT⟩ := ht
      have ha : ∀ x ∈ (p, e) :: ss, pathLt q x.1 = true := by
        intro x hx
        rcases List.mem_cons.mp hx with hx | hx
        · subst hx; exact hlt2
        · exact pathLt_trans _ _ _ hlt2 (hheadS x hx)
      rcases List.mem_cons.mp h with h | h
      · subst h
        refine ⟨?_, ?_, by simp⟩
        · symm
          exact Tree.find_eq_none _ _ fun x hx => ne_of_pathLt (ha x hx)
        · rw [Tree.find, if_pos rfl]
      · obtain ⟨h1, h2, h3⟩ := ih (List.pairwise_cons.mpr ⟨hheadS, htailS⟩) htailT it h
        have hgt := keys_gt_of_mergeAux q ha hheadT it h
        refine ⟨h1, ?_, h3⟩
        rw [Tree.find_cons_ne _ _ _ _ (ne_of_pathLt hgt)]
        exact h2
  | case7 n p e ss q f ts hlt hlt2 ih =>
      intro hs ht it h
      have hpq : p = q := pathLt_eq_of_not_lt p q (by
          cases hc : pathLt p q with
          | false => rfl
          | true => exact absurd hc hlt) (by
          cases hc : pathLt q p with
          | false => rfl
          | true => exact absurd hc hlt2)
      rw [mergeAux, if_neg hlt, if_neg hlt2] at h
      rw [sortedTree, List.pairwise_cons] at hs ht
      obtain ⟨hheadS, htailS⟩ := hs
      obtain ⟨hheadT, htailT⟩ := ht
      have hbt : ∀ x ∈ ts, pathLt p x.1 = true := by
        intro x hx
        rw [hpq]
        exact hheadT x hx
      rcases List.mem_cons.mp h with h | h
      · subst h
        refine ⟨?_, ?_, by simp⟩
        · rw [Tree.find, if_pos rfl]
        · rw [hpq, Tree.find, if_pos rfl]
      · obtain ⟨h1, h2, h3⟩ := ih htailS htailT it h
        have hgt := keys_gt_of_mergeAux p hheadS hbt it h
        refine ⟨?_, ?_, h3⟩
        · rw [Tree.find_cons_ne _ _ _ _ (ne_of_pathLt hgt)]
          exact h1
        · rw [Tree.find_cons_ne _ _ _ _ (fun hh => (ne_of_pathLt hgt) (hpq ▸ hh))]
          exact h2

theorem mergeItems_spec (s t : Tree) (hs : sortedTree s) (ht : sortedTree t) :
    ∀ it ∈ mergeItems s t,
      it.src = Tree.find s it.path ∧ it.tgt = Tree.find t it.path ∧
        (it.src ≠ none ∨ it.tgt ≠ none) :=
  mergeAux_spec (s.length + t.length) s t hs ht

theorem mergeAux_total : ∀ (fuel : Nat) (s t : Tree),
    s.length + t.length ≤ fuel → ∀ r : Path,
    (Tree.find s r ≠ none ∨ Tree.find t r ≠ none) →
    ∃ it ∈ mergeAux fuel s t, it.path = r := by
  intro fuel s t
  induction fuel, s, t using mergeAux.induct with
  | case1 s t =>
      intro hfuel r h
      have hs0 : s = [] := List.length_eq_zero.mp (by omega)
      have ht0 : t = [] := List.length_eq_zero.mp (by omega)
      subst hs0
      subst ht0
      rcases h with h | h <;> simp [Tree.find] at h
  | case2 n =>
      intro _ r h
      rcases h with h | h <;> simp [Tree.find] at h
  | case3 n q f ts ih =>
      intro hfuel r h
      by_cases hrq : r = q
      · exact ⟨⟨q, none, some f⟩, by rw [mergeAux]; exact List.mem_cons_self _ _,
          hrq.symm ▸ rfl⟩
      · have h2 : Tree.find ([] : Tree) r ≠ none ∨ Tree.find ts r ≠ none := by
          rcases h with h | h
          · exact Or.inl h
          · rw [Tree.find_cons_ne _ _ _ _ hrq] at h
            exact Or.inr h
        obtain ⟨it, hit, hp⟩ := ih (by simp at hfuel ⊢; omega) r h2
        exact ⟨it, by rw [mergeAux]; exact List.mem_cons_of_mem _ hit, hp⟩
  | case4 n p e ss ih =>
      intro hfuel r h
      by_cases hrp : r = p
      · exact ⟨⟨p, some e, none⟩, by rw [mergeAux]; exact List.mem_cons_self _ _,
          hrp.symm ▸ rfl⟩
      · have h2 : Tree.find ss r ≠ none ∨ Tree.find ([] : Tree) r ≠ none := by
          rcases h with h | h
          · rw [Tree.find_cons_ne _ _ _ _ hrp] at h
            exact Or.inl h
          · exact Or.inr h
        obtain ⟨it, hit, hp⟩ := ih (by simp at hfuel ⊢; omega) r h2
        exact ⟨it, by rw [mergeAux]; exact List.mem_cons_of_mem _ hit, hp⟩
  | case5 n p e ss q f ts hlt ih =>
      intro hfuel r h
      by_cases hrp : r = p
      · exact ⟨⟨p, some e, none⟩,
          by rw [mergeAux, if_pos hlt]; exact List.mem_cons_self _ _,
          hrp.symm ▸ rfl⟩
      · have h2 : Tree.find ss r ≠ none ∨ Tree.find ((q, f) :: ts) r ≠ none := by
          rcases h with h | h
          · rw [Tree.find_cons_ne _ _ _ _ hrp] at h
            exact Or.inl h
          · exact Or.inr h
        obtain ⟨it, hit, hp⟩ := ih (by simp at hfuel ⊢; omega) r h2
        exact ⟨it, by rw [mergeAux, if_pos hlt]; exact List.mem_cons_of_mem _ hit, hp⟩
  | case6 n p e ss q f ts hlt hlt2 ih =>
      intro hfuel r h
      by_cases hrq : r = q
      · exact ⟨⟨q, none, some f⟩,
          by rw [mergeAux, if_neg hlt, if_pos hlt2]; exact List.mem_cons_self _ _,
          hrq.symm ▸ rfl⟩
      · have h2 : Tree.find ((p, e) :: ss) r ≠ none ∨ Tree.find ts r ≠ none := by
          rcases h with h | h
          · exact Or.inl h
          · rw [Tree.find_cons_ne _ _ _ _ hrq] at h
            exact Or.inr h
        obtain ⟨it, hit, hp⟩ := ih (by simp at hfuel ⊢; omega) r h2
        exact ⟨it,
          by rw [mergeAux, if_neg hlt, if_pos hlt2]; exact List.mem_cons_of_mem _ hit,
          hp⟩
  | case7 n p e ss q f ts hlt hlt2 ih =>
      intro hfuel r h
      have hpq : p = q := pathLt_eq_of_not_lt p q (by
          cases hc : pathLt p q with
          | false => rfl
          | true => exact absurd hc hlt) (by
          cases hc : pathLt q p with
          | false => rfl
          | true => exact absurd hc hlt2)
      by_cases hrp : r = p
      · exact ⟨⟨p, some e, some f⟩,
          by rw [mergeAux, if_neg hlt, if_neg hlt2]; exact List.mem_cons_self _ _,
          hrp.symm ▸ rfl⟩
      · have h2 : Tree.find ss r ≠ none ∨ Tree.find ts r ≠ none := by
          rcases h with h | h
          · rw [Tree.find_cons_ne _ _ _ _ hrp] at h
            exact Or.inl h
          · rw [Tree.find_cons_ne _ _ _ _ (fun hh => hrp (hh.trans hpq.symm))] at h
            exact Or.inr h
        obtain ⟨it, hit, hp⟩ := ih (by simp at hfuel ⊢; omega) r h2
        exact ⟨it,
          by rw [mergeAux, if_neg hlt, if_neg hlt2]; exact List.mem_cons_of_mem _ hit,
          hp⟩

theorem mergeItems_total (s t : Tree) (r : Path)
    (h : Tree.find s r ≠ none ∨ Tree.find t r ≠ none) :
    ∃ it ∈ mergeItems s t, it.path = r :=
  mergeAux_total (s.length + t.length) s t (le_refl _) r h

theorem mergeAux_sorted : ∀ (fuel : Nat) (s t : Tree),
    sortedTree s → sortedTree t →
    (mergeAux fuel s t).Pairwise (fun a b => pathLt a.path b.path = true) := by
  intro fuel s t
  induction fuel, s, t using mergeAux.induct with
  | case1 s t =>
      intro _ _
      rw [mergeAux]
      exact List.Pairwise.nil
  | case2 n =>
      intro _ _
      rw [mergeAux]
      exact List.Pairwise.nil
  | case3 n q f ts ih =>
      intro hs ht
      rw [sortedTree, List.pairwise_cons] at ht
      obtain ⟨hheadT, htailT⟩ := ht
      rw [mergeAux, List.pairwise_cons]
      exact ⟨keys_gt_of_mergeAux q (by intro x hx; simp at hx) hheadT, ih hs htailT⟩
  | case4 n p e ss ih =>
      intro hs ht
      rw [sortedTree, List.pairwise_cons] at hs
      obtain ⟨hheadS, htailS⟩ := hs
      rw [mergeAux, List.pairwise_cons]
      exact ⟨keys_gt_of_mergeAux p hheadS (by intro x hx; simp at hx), ih htailS ht⟩
  | case5 n p e ss q f ts hlt ih =>
      intro hs ht
      rw [sortedTree, List.pairwise_cons] at hs ht
      obtain ⟨hheadS, htailS⟩ := hs
      obtain ⟨hheadT, htailT⟩ := ht
      have hb : ∀ x ∈ (q, f) :: ts, pathLt p x.1 = true := by
        intro x hx
        rcases List.mem_cons.mp hx with hx | hx
        · subst hx; exact hlt
        · exact pathLt_trans _ _ _ hlt (hheadT x hx)
      rw [mergeAux, if_pos hlt, List.pairwise_cons]
      exact ⟨keys_gt_of_mergeAux p hheadS hb,
        ih htailS (List.pairwise_cons.mpr ⟨hheadT, htailT⟩)⟩
  | case6 n p e ss q f ts hlt hlt2 ih =>
      intro hs ht
      rw [sortedTree, List.pairwise_cons] at hs ht
      obtain ⟨hheadS, htailS⟩ := hs
      obtain ⟨hheadT, htailT⟩ := ht
      have ha : ∀ x ∈ (p, e) :: ss, pathLt q x.1 = true := by
        intro x hx
        rcases List.mem_cons.mp hx with hx | hx
        · subst hx; exact hlt2
        · exact pathLt_trans _ _ _ hlt2 (hheadS x hx)
      rw [mergeAux, if_neg hlt, if_pos hlt2, List.pairwise_cons]
      exact ⟨keys_gt_of_mergeAux q ha hheadT,
        ih (List.pairwise_cons.mpr ⟨hheadS, htailS⟩) htailT⟩
  | case7 n p e ss q f ts hlt hlt2 ih =>
      intro hs ht
      have hpq : p = q := pathLt_eq_of_not_lt p q (by
          cases hc : pathLt p q with
          | false => rfl
          | true => exact absurd hc hlt) (by
          cases hc : pathLt q p with
          | false => rfl
          | true => exact absurd hc hlt2)
      rw [sortedTree, List.pairwise_cons] at hs ht
      obtain ⟨hheadS, htailS⟩ := hs
      obtain ⟨hheadT, htailT⟩ := ht
      have hbt : ∀ x ∈ ts, pathLt p x.1 = true := by
        intro x hx
        rw [hpq]
        exact hheadT x hx
      rw [mergeAux, if_neg hlt, if_neg hlt2, List.pairwise_cons]
      exact ⟨keys_gt_of_mergeAux p hheadS hbt, ih htailS htailT⟩

theorem mergeItems_sorted (s t : Tree) (hs : sortedTree s) (ht : sortedTree t) :
    (mergeItems s t).Pairwise (fun a b => pathLt a.path b.path = true) :=
  mergeAux_sorted (s.length + t.length) s t hs ht

/-! ### Classification lemmas and Claim C3 -/

theorem contentSame_refl (o : Options) (e : EntryData) :
    contentSame o e e = true := by
  unfold contentSame metaMatch
  cases e.kind <;> simp [distNat]

theorem metadataSame_refl (o : Options) (e : EntryData) :
    metadataSame o e e = true := by
  unfold metadataSame
  simp [distNat]

theorem classify_refl (o : Options) (e : EntryData) :
    classify o (some e) (some e) = some Classification.EqualInBoth := by
  unfold classify
  simp [contentSame_refl, metadataSame_refl]

theorem classify_none_none (o : Options) : classify o none none = none := rfl

/-- Elimination form used by the completeness proofs: an `EqualInBoth`
classification pins the target snapshot to one of matching kind and
content. -/
theorem classify_equal_elim (o : Options) (e : EntryData)
    (x : Option EntryData)
    (h : classify o (some e) x = some Classification.EqualInBoth) :
    ∃ f, x = some f ∧ f.kind = e.kind ∧ contentSame o e f = true := by
  cases x with
  | none => simp [classify] at h
  | some f =>
      refine ⟨f, rfl, ?_, ?_⟩
      · by_cases hk : e.kind = f.kind
        · exact hk.symm
        · simp [classify, hk] at h
      · by_cases hk : e.kind = f.kind
        · cases hc : contentSame o e f with
          | true => rfl
          | false => simp [classify, hk, hc] at h
        · simp [classify, hk] at h

/-- C3 (amended): the classification table of the differ.  Present only in
source gives OnlyInSource; present only in target gives OnlyInTarget;
differing kind gives DifferInType; same kind with content deemed equal and
metadata within tolerance gives EqualInBoth; same kind with content deemed
different gives DifferInContent, which never happens for directories; same
kind with equal content but metadata beyond tolerance gives
DifferInMetadataOnly.  The classification is a pure function of the two
optional snapshots. -/
theorem classify_table (o : Options) :
    (∀ e, classify o (some e) none = some Classification.OnlyInSource) ∧
      (∀ f, classify o none (some f) = some Classification.OnlyInTarget) ∧
      (∀ s t, s.kind ≠ t.kind →
        classify o (some s) (some t) = some Classification.DifferInType) ∧
      (∀ s t, s.kind = t.kind → contentSame o s t = true →
        metadataSame o s t = true →
        classify o (some s) (some t) = some Classification.EqualInBoth) ∧
      (∀ s t, s.kind = t.kind → contentSame o s t = false →
        classify o (some s) (some t) = some Classification.DifferInContent) ∧
      (∀ s t, s.kind = EntryKind.directory →
        classify o (some s) (some t) ≠ some Classification.DifferInContent) ∧
      (∀ s t, s.kind = t.kind → contentSame o s t = true →
        metadataSame o s t = false →
        classify o (some s) (some t) = some Classification.DifferInMetadataOnly) := by
  refine ⟨fun _ => rfl, fun _ => rfl, ?_, ?_, ?_, ?_, ?_⟩
  · intro s t h
    simp [classify, h]
  · intro s t hk hc hm
    simp [classify, hk, hc, hm]
  · intro s t hk hc
    simp [classify, hk, hc]
  · intro s t hk
    by_cases hkind : s.kind = t.kind
    · have hc : contentSame o s t = true := by
        unfold contentSame
        rw [hk]
      simp [classify, hkind, hc]
      by_cases hm : metadataSame o s t = true <;> simp [hm]
    · simp [classify, hkind]
  · intro s t hk hc hm
    simp [classify, hk, hc, hm]

/-- Counterexample to C3 as stated: in strict-checksum mode two files with
equal metadata but different fingerprints are classified DifferInContent,
not EqualInBoth — "equal metadata … gives EqualInBoth" fails. -/
theorem classify_table_counterexample :
    (EntryData.kind ⟨.file, 10, 1, 100, 6⟩ =
        EntryData.kind ⟨.file, 10, 2, 100, 6⟩) ∧
      metadataSame { strict_checksum := true }
          ⟨.file, 10, 1, 100, 6⟩ ⟨.file, 10, 2, 100, 6⟩ = true ∧
      classify { strict_checksum := true }
          (some ⟨.file, 10, 1, 100, 6⟩) (some ⟨.file, 10, 2, 100, 6⟩) ≠
        some Classification.EqualInBoth := by
  refine ⟨rfl, by decide, by decide⟩

/-- Witness for C3: each row of the amended table applied at concrete
snapshots. -/
theorem classify_table_witness :
    classify {} (some ⟨.file, 10, 1, 100, 6⟩) none =
        some Classification.OnlyInSource ∧
      classify {} none (some ⟨.file, 10, 1, 100, 6⟩) =
        some Classification.OnlyInTarget ∧
      classify {} (some ⟨.directory, 0, 0, 100, 7⟩)
          (some ⟨.file, 10, 1, 100, 6⟩) = some Classification.DifferInType ∧
      classify {} (some ⟨.file, 10, 1, 100, 6⟩)
          (some ⟨.file, 10, 1, 100, 6⟩) = some Classification.EqualInBoth ∧
      classify {} (some ⟨.file, 10, 1, 100, 6⟩)
          (some ⟨.file, 11, 2, 300, 6⟩) = some Classification.DifferInContent ∧
      classify {} (some ⟨.directory, 0, 0, 100, 7⟩)
          (some ⟨.directory, 0, 0, 100, 5⟩) ≠
        some Classification.DifferInContent ∧
      classify {} (some ⟨.file, 10, 1, 100, 6⟩)
          (some ⟨.file, 10, 1, 100, 4⟩) =
        some Classification.DifferInMetadataOnly :=
  ⟨(classify_table {}).1 _,
    (classify_table {}).2.1 _,
    (classify_table {}).2.2.1 _ _ (by decide),
    (classify_table {}).2.2.2.1 _ _ (by decide) (by decide) (by decide),
    (classify_table {}).2.2.2.2.1 _ _ (by decide) (by decide),
    (classify_table {}).2.2.2.2.2.1 _ _ (by decide),
    (classify_table {}).2.2.2.2.2.2 _ _ (by decide) (by decide) (by decide)⟩

/-! ### Change planner lemmas and Claim C4 -/

theorem mkCreateOp_path (p : Path) (e : EntryData) :
    (mkCreateOp p e).path = p := by
  cases he : e.kind <;> simp [mkCreateOp, he, Operation.path]

theorem mkUpdateOp_path (p : Path) (e : EntryData) :
    (mkUpdateOp p e).path = p := by
  cases he : e.kind <;> simp [mkUpdateOp, he, Operation.path]

theorem mkDeleteOp_path (p : Path) (e : EntryData) :
    (mkDeleteOp p e).path = p := by
  cases he : e.kind <;> simp [mkDeleteOp, he, Operation.path]

theorem mkCreateOp_not_delete (p : Path) (e : EntryData) :
    isDeleteOp (mkCreateOp p e) = false := by
  cases he : e.kind <;> simp [mkCreateOp, he, isDeleteOp]

theorem mkUpdateOp_not_delete (p : Path) (e : EntryData) :
    isDeleteOp (mkUpdateOp p e) = false := by
  cases he : e.kind <;> simp [mkUpdateOp, he, isDeleteOp]

theorem mkDeleteOp_delete (p : Path) (e : EntryData) :
    isDeleteOp (mkDeleteOp p e) = true := by
  cases he : e.kind <;> simp [mkDeleteOp, he, isDeleteOp]

theorem createOpFor_path (o : Options) (it : DiffItem) (op : Operation)
    (h : createOpFor o it = some op) : op.path = it.path := by
  unfold createOpFor at h
  split at h <;> (try cases h) <;>
    first
      | rfl
      | exact mkCreateOp_path _ _
      | exact mkUpdateOp_path _ _

theorem createOpFor_not_delete (o : Options) (it : DiffItem) (op : Operation)
    (h : createOpFor o it = some op) : isDeleteOp op = false := by
  unfold createOpFor at h
  split at h <;> (try cases h) <;>
    first
      | rfl
      | exact mkCreateOp_not_delete _ _
      | exact mkUpdateOp_not_delete _ _

theorem deleteOpFor_path (o : Options) (it : DiffItem) (op : Operation)
    (h : deleteOpFor o it = some op) : op.path = it.path := by
  unfold deleteOpFor at h
  split at h <;> (try split at h) <;> (try cases h) <;>
    exact mkDeleteOp_path _ _

theorem deleteOpFor_delete (o : Options) (it : DiffItem) (op : Operation)
    (h : deleteOpFor o it = some op) : isDeleteOp op = true := by
  unfold deleteOpFor at h
  split at h <;> (try split at h) <;> (try cases h) <;>
    exact mkDeleteOp_delete _ _

theorem filterMap_ops_pairwise (f : DiffItem → Option Operation)
    (hf : ∀ it op, f it = some op → Operation.path op = it.path)
    (items : List DiffItem)
    (h : items.Pairwise (fun a b => pathLt a.path b.path = true)) :
    (items.filterMap f).Pairwise
      (fun a b => pathLt (Operation.path a) (Operation.path b) = true) := by
  induction items with
  | nil => simp
  | cons hd tl ih =>
      rw [List.pairwise_cons] at h
      obtain ⟨hhead, htail⟩ := h
      rw [List.filterMap_cons]
      cases hf0 : f hd with
      | none => exact ih htail
      | some op =>
          rw [List.pairwise_cons]
          refine ⟨?_, ih htail⟩
          intro b hb
          obtain ⟨it, hit, hfit⟩ := List.mem_filterMap.mp hb
          rw [hf hd op hf0, hf it b hfit]
          exact hhead it hit

theorem mem_filterMap_fact {f : DiffItem → Option Operation}
    {P : Operation → Prop} (hP : ∀ it op, f it = some op → P op)
    (items : List DiffItem) : ∀ op ∈ items.filterMap f, P op := by
  intro op hop
  obtain ⟨it, hit, h⟩ := List.mem_filterMap.mp hop
  exact hP it op h

/-- Ordering invariant for a plan built from any diff listed in strictly
increasing path order. -/
theorem plan_ordering_of_sorted (o : Options) (items : List DiffItem)
    (hsorted : items.Pairwise (fun a b => pathLt a.path b.path = true)) :
    ∀ (i j : Nat) (hi : i < (planOps o items).length)
      (hj : j < (planOps o items).length),
      (∀ d e, (planOps o items)[i] = Operation.CreateDirectory d e →
        leadsTo d ((planOps o items)[j]).path = true → i < j) ∧
      (∀ d, (planOps o items)[i] = Operation.DeleteDirectory d →
        isDeleteOp ((planOps o items)[j]) = true →
        leadsTo d ((planOps o items)[j]).path = true → j < i) := by
  have hC := filterMap_ops_pairwise (createOpFor o) (createOpFor_path o) items hsorted
  have hD := filterMap_ops_pairwise (deleteOpFor o) (deleteOpFor_path o) items hsorted
  have hCnd : ∀ op ∈ items.filterMap (createOpFor o), isDeleteOp op = false :=
    mem_filterMap_fact (createOpFor_not_delete o) items
  have hDd : ∀ op ∈ (items.filterMap (deleteOpFor o)).reverse, isDeleteOp op = true := by
    intro op hop
    exact mem_filterMap_fact (deleteOpFor_delete o) items op (List.mem_reverse.mp hop)
  have hDrev : (items.filterMap (deleteOpFor o)).reverse.Pairwise
      (fun a b => pathLt (Operation.path b) (Operation.path a) = true) := by
    rw [List.pairwise_reverse]
    exact hD
  have hpair : (planOps o items).Pairwise (fun a b =>
      (∀ d e, b = Operation.CreateDirectory d e → leadsTo d a.path = false) ∧
        (∀ d, a = Operation.DeleteDirectory d → isDeleteOp b = true →
          leadsTo d b.path = false)) := by
    rw [planOps, List.pairwise_append]
    refine ⟨?_, ?_, ?_⟩
    · refine List.Pairwise.imp_of_mem ?_ hC
      intro a b ha hb hlt
      constructor
      · intro d e hbe
        cases hld : leadsTo d a.path with
        | false => rfl
        | true =>
            have h1 : pathLt d a.path = true := leadsTo_pathLt _ _ hld
            have h2 : Operation.path b = d := by rw [hbe]; rfl
            rw [← h2] at h1
            rw [pathLt_asymm _ _ hlt] at h1
            cases h1
      · intro d hae
        have : isDeleteOp a = true := by rw [hae]; rfl
        rw [hCnd a ha] at this
        cases this
    · refine List.Pairwise.imp_of_mem ?_ hDrev
      intro a b ha hb hlt
      constructor
      · intro d e hbe
        have : isDeleteOp b = false := by rw [hbe]; rfl
        rw [hDd b hb] at this
        cases this
      · intro d hae hdel
        cases hld : leadsTo d b.path with
        | false => rfl
        | true =>
            have h1 : pathLt d (Operation.path b) = true := leadsTo_pathLt _ _ hld
            have h2 : Operation.path a = d := by rw [hae]; rfl
            rw [← h2] at h1
            rw [pathLt_asymm _ _ hlt] at h1
            cases h1
    · intro a ha b hb
      constructor
      · intro d e hbe
        have : isDeleteOp b = false := by rw [hbe]; rfl
        rw [hDd b hb] at this
        cases this
      · intro d hae
        have : isDeleteOp a = true := by rw [hae]; rfl
        rw [hCnd a ha] at this
        cases this
  intro i j hi hj
  constructor
  · intro d e hCd hLeads
    rcases Nat.lt_trichotomy i j with hij | hij | hij
    · exact hij
    · subst hij
      rw [hCd] at hLeads
      have hpath : (Operation.CreateDirectory d e).path = d := rfl
      rw [hpath] at hLeads
      rw [leadsTo_irrefl] at hLeads
      cases hLeads
    · have hR := (List.pairwise_iff_getElem.mp hpair) j i hj hi hij
      rw [hR.1 d e hCd] at hLeads
      cases hLeads
  · intro d hDdel hbdel hLeads
    rcases Nat.lt_trichotomy j i with hij | hij | hij
    · exact hij
    · subst hij
      rw [hDdel] at hLeads
      have hpath : (Operation.DeleteDirectory d).path = d := rfl
      rw [hpath] at hLeads
      rw [leadsTo_irrefl] at hLeads
      cases hLeads
    · have hR := (List.pairwise_iff_getElem.mp hpair) i j hi hj hij
      rw [hR.2 d hDdel hbdel] at hLeads
      cases hLeads


/-- C4: in every Plan produced by the Change Planner, a directory's
CreateDirectory operation precedes every Operation targeting a path inside
that directory, and a directory's DeleteDirectory operation follows every
deletion of an entry inside that directory. -/
theorem plan_ordering (o : Options) (s t : Tree) (hs : sortedTree s)
    (ht : sortedTree t) :
    ∀ (i j : Nat) (hi : i < (planOps o (mergeItems s t)).length)
      (hj : j < (planOps o (mergeItems s t)).length),
      (∀ d e, (planOps o (mergeItems s t))[i] = Operation.CreateDirectory d e →
        leadsTo d ((planOps o (mergeItems s t))[j]).path = true → i < j) ∧
      (∀ d, (planOps o (mergeItems s t))[i] = Operation.DeleteDirectory d →
        isDeleteOp ((planOps o (mergeItems s t))[j]) = true →
        leadsTo d ((planOps o (mergeItems s t))[j]).path = true → j < i) :=
  plan_ordering_of_sorted o (mergeItems s t) (mergeItems_sorted s t hs ht)

/-- Witness for C4 on a concrete two-entry source tree and empty target. -/
theorem plan_ordering_witness :
    sortedTree [(([0] : Path), ⟨.directory, 0, 0, 100, 7⟩),
        ([0, 1], ⟨.file, 10, 1, 100, 6⟩)] ∧
      sortedTree [] ∧
      ∀ (i j : Nat)
        (hi : i < (planOps {} (mergeItems
          [(([0] : Path), ⟨.directory, 0, 0, 100, 7⟩),
            ([0, 1], ⟨.file, 10, 1, 100, 6⟩)] [])).length)
        (hj : j < (planOps {} (mergeItems
          [(([0] : Path), ⟨.directory, 0, 0, 100, 7⟩),
            ([0, 1], ⟨.file, 10, 1, 100, 6⟩)] [])).length),
        (∀ d e, (planOps {} (mergeItems
            [(([0] : Path), ⟨.directory, 0, 0, 100, 7⟩),
              ([0, 1], ⟨.file, 10, 1, 100, 6⟩)] []))[i] =
            Operation.CreateDirectory d e →
          leadsTo d ((planOps {} (mergeItems
            [(([0] : Path), ⟨.directory, 0, 0, 100, 7⟩),
              ([0, 1], ⟨.file, 10, 1, 100, 6⟩)] []))[j]).path = true →
          i < j) ∧
        (∀ d, (planOps {} (mergeItems
            [(([0] : Path), ⟨.directory, 0, 0, 100, 7⟩),
              ([0, 1], ⟨.file, 10, 1, 100, 6⟩)] []))[i] =
            Operation.DeleteDirectory d →
          isDeleteOp ((planOps {} (mergeItems
            [(([0] : Path), ⟨.directory, 0, 0, 100, 7⟩),
              ([0, 1], ⟨.file, 10, 1, 100, 6⟩)] []))[j]) = true →
          leadsTo d ((planOps {} (mergeItems
            [(([0] : Path), ⟨.directory, 0, 0, 100, 7⟩),
              ([0, 1], ⟨.file, 10, 1, 100, 6⟩)] []))[j]).path = true →
          j < i) :=
  ⟨by decide, by decide,
    plan_ordering {}
      [(([0] : Path), ⟨.directory, 0, 0, 100, 7⟩), ([0, 1], ⟨.file, 10, 1, 100, 6⟩)]
      [] (by decide) (by decide)⟩

/-! ### Executor lemmas -/

theorem execOp_find (t : Tree) (op : Operation) (t2 : Tree)
    (h : execOp t op = some t2) :
    ∃ v, applyAt (t.find op.path) op = some v ∧ t2.find op.path = v ∧
      ∀ r, r ≠ op.path → t2.find r = t.find r := by
  unfold execOp at h
  cases happ : applyAt (t.find op.path) op with
  | none => rw [happ] at h; cases h
  | some v =>
      rw [happ] at h
      injection h with h2
      refine ⟨v, rfl, ?_, ?_⟩
      · cases v with
        | none => rw [← h2]; exact Tree.find_remove_self _ _
        | some e => rw [← h2]; exact Tree.find_set_self _ _ _
      · intro r hr
        cases v with
        | none => rw [← h2]; exact Tree.find_remove_ne _ _ _ hr
        | some e => rw [← h2]; exact Tree.find_set_ne _ _ _ _ hr

theorem execOp_sorted (t : Tree) (op : Operation) (t2 : Tree)
    (h : execOp t op = some t2) (hs : sortedTree t) : sortedTree t2 := by
  unfold execOp at h
  cases happ : applyAt (t.find op.path) op with
  | none => rw [happ] at h; cases h
  | some v =>
      rw [happ] at h
      injection h with h2
      cases v with
      | none => rw [← h2]; exact Tree.remove_sorted _ _ hs
      | some e => rw [← h2]; exact Tree.set_sorted _ _ _ hs

theorem execOps_map_fst (o : Options) :
    ∀ (ops : List Operation) (fuel : Option Nat) (failed : Bool) (t : Tree),
      (execOps o fuel failed t ops).2.map Prod.fst = ops := by
  intro ops
  induction ops with
  | nil => intro fuel failed t; rfl
  | cons op rest ih =>
      intro fuel failed t
      rw [execOps]
      by_cases hc : fuel = some 0 ∨ (o.fail_fast = true ∧ failed = true)
      · rw [if_pos hc]
        simp [ih]
      · rw [if_neg hc]
        cases hx : execOp t op <;> simp [ih]

theorem execOps_sorted (o : Options) :
    ∀ (ops : List Operation) (fuel : Option Nat) (failed : Bool) (t : Tree),
      sortedTree t → sortedTree (execOps o fuel failed t ops).1 := by
  intro ops
  induction ops with
  | nil => intro fuel failed t hs; exact hs
  | cons op rest ih =>
      intro fuel failed t hs
      rw [execOps]
      by_cases hc : fuel = some 0 ∨ (o.fail_fast = true ∧ failed = true)
      · rw [if_pos hc]
        exact ih _ _ _ hs
      · rw [if_neg hc]
        cases hx : execOp t op with
        | none => exact ih _ _ _ hs
        | some t2 => exact ih _ _ _ (execOp_sorted t op t2 hx hs)

theorem execOps_skipped_of_fuel_zero (o : Options) :
    ∀ (ops : List Operation) (failed : Bool) (t : Tree),
      ∀ r ∈ (execOps o (some 0) failed t ops).2, r.2 = OpResult.Skipped := by
  intro ops
  induction ops with
  | nil => intro failed t r hr; cases hr
  | cons op rest ih =>
      intro failed t r hr
      rw [execOps, if_pos (Or.inl rfl)] at hr
      rcases List.mem_cons.mp hr with hr | hr
      · rw [hr]
      · exact ih failed t r (by simpa [decFuel] using hr)

theorem execOps_skipped_of_failed (o : Options) (hff : o.fail_fast = true) :
    ∀ (ops : List Operation) (fuel : Option Nat) (t : Tree),
      ∀ r ∈ (execOps o fuel true t ops).2, r.2 = OpResult.Skipped := by
  intro ops
  induction ops with
  | nil => intro fuel t r hr; cases hr
  | cons op rest ih =>
      intro fuel t r hr
      rw [execOps, if_pos (Or.inr ⟨hff, rfl⟩)] at hr
      rcases List.mem_cons.mp hr with hr | hr
      · rw [hr]
      · exact ih _ _ r hr

theorem execOps_no_skip (o : Options) (hff : o.fail_fast = false) :
    ∀ (ops : List Operation) (failed : Bool) (t : Tree),
      ∀ r ∈ (execOps o none failed t ops).2, r.2 ≠ OpResult.Skipped := by
  intro ops
  induction ops with
  | nil => intro failed t r hr; cases hr
  | cons op rest ih =>
      intro failed t r hr
      have hc : ¬ ((none : Option Nat) = some 0 ∨
          (o.fail_fast = true ∧ failed = true)) := by
        simp [hff]
      rw [execOps, if_neg hc] at hr
      cases hx : execOp t op with
      | some t2 =>
          rw [hx] at hr
          rcases List.mem_cons.mp hr with hr | hr
          · rw [hr]; simp
          · exact ih _ _ r hr
      | none =>
          rw [hx] at hr
          rcases List.mem_cons.mp hr with hr | hr
          · rw [hr]; simp
          · exact ih _ _ r hr

theorem execOps_halt_after_failure (o : Options) (hff : o.fail_fast = true) :
    ∀ (ops : List Operation) (fuel : Option Nat) (failed : Bool) (t : Tree)
      (l₁ l₂ : List (Operation × OpResult)) (a : Operation),
      (execOps o fuel failed t ops).2 = l₁ ++ (a, OpResult.Failed) :: l₂ →
      ∀ r ∈ l₂, r.2 = OpResult.Skipped := by
  intro ops
  induction ops with
  | nil =>
      intro fuel failed t l₁ l₂ a heq
      exact absurd heq.symm (List.append_ne_nil_of_right_ne_nil _ (by simp))
  | cons op rest ih =>
      intro fuel failed t l₁ l₂ a heq
      rw [execOps] at heq
      by_cases hc : fuel = some 0 ∨ (o.fail_fast = true ∧ failed = true)
      · rw [if_pos hc] at heq
        cases l₁ with
        | nil =>
            simp only [List.nil_append] at heq
            injection heq with h1 h2
            injection h1 with h1a h1b
            cases h1b
        | cons b l₁' =>
            simp only [List.cons_append] at heq
            injection heq with h1 h2
            exact ih _ _ _ l₁' l₂ a h2
      · rw [if_neg hc] at heq
        cases hx : execOp t op with
        | some t2 =>
            rw [hx] at heq
            cases l₁ with
            | nil =>
                simp only [List.nil_append] at heq
                injection heq with h1 h2
                injection h1 with h1a h1b
                cases h1b
            | cons b l₁' =>
                simp only [List.cons_append] at heq
                injection heq with h1 h2
                exact ih _ _ _ l₁' l₂ a h2
        | none =>
            rw [hx] at heq
            cases l₁ with
            | nil =>
                simp only [List.nil_append] at heq
                injection heq with h1 h2
                intro r hr
                rw [← h2] at hr
                exact execOps_skipped_of_failed o hff rest _ _ r hr
            | cons b l₁' =>
                simp only [List.cons_append] at heq
                injection heq with h1 h2
                exact ih _ _ _ l₁' l₂ a h2

theorem execOps_cancel_skips (o : Options) :
    ∀ (ops : List Operation) (n : Nat) (failed : Bool) (t : Tree),
      ∀ r ∈ (execOps o (some n) failed t ops).2.drop n,
        r.2 = OpResult.Skipped := by
  intro ops
  induction ops with
  | nil =>
      intro n failed t r hr
      rw [execOps] at hr
      simp at hr
  | cons op rest ih =>
      intro n failed t r hr
      cases n with
      | zero =>
          exact execOps_skipped_of_fuel_zero o (op :: rest) failed t r
            (List.mem_of_mem_drop hr)
      | succ n =>
          rw [execOps] at hr
          by_cases hc : (some (n + 1) : Option Nat) = some 0 ∨
              (o.fail_fast = true ∧ failed = true)
          · rw [if_pos hc] at hr
            simp only [List.drop_succ_cons, decFuel] at hr
            exact ih n failed t r hr
          · rw [if_neg hc] at hr
            cases hx : execOp t op with
            | some t2 =>
                rw [hx] at hr
                simp only [List.drop_succ_cons, decFuel] at hr
                exact ih n failed t2 r hr
            | none =>
                rw [hx] at hr
                simp only [List.drop_succ_cons, decFuel] at hr
                exact ih n true t r hr

theorem execOps_find_untouched (o : Options) (p : Path) :
    ∀ (ops : List Operation) (fuel : Option Nat) (failed : Bool) (t : Tree),
      ops.filter (fun op => decide (op.path = p)) = [] →
      (execOps o fuel failed t ops).1.find p = t.find p := by
  intro ops
  induction ops with
  | nil => intro fuel failed t _; rfl
  | cons op rest ih =>
      intro fuel failed t hfil
      rw [List.filter_cons] at hfil
      by_cases hp : op.path = p
      · rw [if_pos (by simp [hp])] at hfil
        cases hfil
      · rw [if_neg (by simp [hp])] at hfil
        rw [execOps]
        by_cases hc : fuel = some 0 ∨ (o.fail_fast = true ∧ failed = true)
        · rw [if_pos hc]
          exact ih _ _ _ hfil
        · rw [if_neg hc]
          cases hx : execOp t op with
          | none => exact ih _ _ _ hfil
          | some t2 =>
              rw [ih _ _ _ hfil]
              obtain ⟨v, _, _, hother⟩ := execOp_find t op t2 hx
              exact hother p fun hh => hp hh.symm

theorem execOps_success_find (o : Options) (p : Path) :
    ∀ (ops : List Operation) (t : Tree),
      (∀ r ∈ (execOps o none false t ops).2, r.2 ≠ OpResult.Failed) →
      applyChain (t.find p) (ops.filter (fun op => decide (op.path = p))) =
        some ((execOps o none false t ops).1.find p) := by
  intro ops
  induction ops with
  | nil => intro t _; rfl
  | cons op rest ih =>
      intro t hnf
      have hc : ¬ ((none : Option Nat) = some 0 ∨
          (o.fail_fast = true ∧ false = true)) := by simp
      rw [execOps, if_neg hc] at hnf ⊢
      cases hx : execOp t op with
      | none =>
          rw [hx] at hnf
          exact absurd rfl
            (hnf (op, OpResult.Failed) (List.mem_cons_self _ _))
      | some t2 =>
          rw [hx] at hnf
          have hnf' : ∀ r ∈ (execOps o none false t2 rest).2,
              r.2 ≠ OpResult.Failed := by
            intro r hr
            exact hnf r (List.mem_cons_of_mem _ (by simpa [decFuel] using hr))
          have hIH := ih t2 hnf'
          obtain ⟨v, happ, hself, hother⟩ := execOp_find t op t2 hx
          rw [List.filter_cons]
          by_cases hp : op.path = p
          · rw [if_pos (by simp [hp])]
            rw [applyChain]
            rw [hp] at happ hself
            rw [happ, ← hself]
            simpa [decFuel] using hIH
          · rw [if_neg (by simp [hp])]
            rw [← hother p fun hh => hp hh.symm]
            simpa [decFuel] using hIH

/-! ### Per-path run analysis -/

theorem applyChain_nil (cur : Option EntryData) : applyChain cur [] = some cur := rfl

theorem applyChain_cons_ok (cur : Option EntryData) (op : Operation)
    (v : Option EntryData) (rest : List Operation) (h : applyAt cur op = some v) :
    applyChain cur (op :: rest) = applyChain v rest := by
  rw [applyChain, h]

theorem applyChain_cons_fail (cur : Option EntryData) (op : Operation)
    (rest : List Operation) (h : applyAt cur op = none) :
    applyChain cur (op :: rest) = none := by
  rw [applyChain, h]

theorem applyAt_create_none (p : Path) (e : EntryData) :
    applyAt none (mkCreateOp p e) = some (some e) := by
  cases he : e.kind <;> simp [mkCreateOp, he, applyAt]

theorem applyAt_create_some (p : Path) (e f : EntryData) :
    applyAt (some f) (mkCreateOp p e) = none := by
  cases he : e.kind <;> simp [mkCreateOp, he, applyAt]

theorem applyAt_update (p : Path) (e f : EntryData) (hk : f.kind = e.kind)
    (hnd : e.kind ≠ EntryKind.directory) :
    applyAt (some f) (mkUpdateOp p e) = some (some e) := by
  cases he : e.kind with
  | directory => exact absurd he hnd
  | file =>
      rw [he] at hk
      simp [mkUpdateOp, he, applyAt, hk]
  | symlink =>
      rw [he] at hk
      simp [mkUpdateOp, he, applyAt, hk]

theorem applyAt_delete (p : Path) (f : EntryData) :
    applyAt (some f) (mkDeleteOp p f) = some none := by
  cases hf : f.kind <;> simp [mkDeleteOp, hf, applyAt]

theorem applyAt_set_meta (p : Path) (m pm : Nat) (f : EntryData) :
    applyAt (some f) (Operation.SetPermissions p m pm) =
      some (some { f with modified := m, permissions := pm }) := rfl

theorem distNat_self (a : Nat) : distNat a a = 0 := by
  simp [distNat]

theorem contentSame_of_dir (o : Options) (e f : EntryData)
    (he : e.kind = EntryKind.directory) : contentSame o e f = true := by
  unfold contentSame
  rw [he]

theorem contentSame_after_set (o : Options) (e f : EntryData)
    (hcs : contentSame o e f = true) :
    contentSame o e
      { f with modified := e.modified, permissions := e.permissions } = true := by
  obtain ⟨ek, es, ec, em, ep⟩ := e
  cases ek with
  | directory => rfl
  | symlink => exact hcs
  | file =>
      unfold contentSame at hcs ⊢
      by_cases hst : o.strict_checksum = true
      · rw [if_pos hst] at hcs ⊢
        exact hcs
      · rw [if_neg hst] at hcs ⊢
        unfold metaMatch at hcs ⊢
        have h1 := ((Bool.and_eq_true _ _).mp hcs).1
        simp only [h1, distNat_self, Bool.true_and]
        simp

theorem metadataSame_after_set (o : Options) (e f : EntryData)
    (hcs : contentSame o e f = true) :
    metadataSame o e
      { f with modified := e.modified, permissions := e.permissions } = true := by
  obtain ⟨ek, es, ec, em, ep⟩ := e
  have hsz : ((EntryData.mk ek es ec em ep).kind != EntryKind.file ||
      (es == f.size)) = true := by
    cases ek with
    | directory => rfl
    | symlink => rfl
    | file =>
        unfold contentSame at hcs
        by_cases hst : o.strict_checksum = true
        · rw [if_pos hst] at hcs
          have h1 := ((Bool.and_eq_true _ _).mp hcs).1
          simp [h1]
        · rw [if_neg hst] at hcs
          unfold metaMatch at hcs
          have h1 := ((Bool.and_eq_true _ _).mp hcs).1
          simp [h1]
  unfold metadataSame
  simp only [hsz, distNat_self, Bool.true_and]
  simp

theorem classify_after_set (o : Options) (e f : EntryData)
    (hk : e.kind = f.kind) (hcs : contentSame o e f = true) :
    classify o (some e)
        (some { f with modified := e.modified, permissions := e.permissions }) =
      some Classification.EqualInBoth := by
  have hk2 : e.kind =
      ({ f with modified := e.modified, permissions := e.permissions } :
        EntryData).kind := hk
  simp [classify, hk2, contentSame_after_set o e f hcs,
    metadataSame_after_set o e f hcs]

theorem filter_path_singleton (items : List DiffItem)
    (hp : items.Pairwise (fun a b => pathLt a.path b.path = true))
    (it : DiffItem) (hit : it ∈ items) :
    items.filter (fun x => decide (x.path = it.path)) = [it] := by
  induction items with
  | nil => cases hit
  | cons hd tl ih =>
      rw [List.pairwise_cons] at hp
      obtain ⟨hhead, htl⟩ := hp
      rcases List.mem_cons.mp hit with hh | hh
      · subst hh
        rw [List.filter_cons, if_pos (by simp)]
        have hnil : tl.filter (fun x => decide (x.path = it.path)) = [] := by
          rw [List.filter_eq_nil_iff]
          intro x hx
          simp only [decide_eq_true_eq]
          exact ne_of_pathLt (hhead x hx)
        rw [hnil]
      · have hne : ¬ (decide (hd.path = it.path)) = true := by
          simp only [decide_eq_true_eq]
          intro hh2
          exact (ne_of_pathLt (hhead it hh)) hh2.symm
        rw [List.filter_cons, if_neg hne]
        exact ih htl hh

theorem filter_path_nil (items : List DiffItem) (p : Path)
    (h : ∀ it ∈ items, ¬ it.path = p) :
    items.filter (fun x => decide (x.path = p)) = [] := by
  rw [List.filter_eq_nil_iff]
  intro x hx
  simp only [decide_eq_true_eq]
  exact h x hx

theorem filterMap_filter_path (f : DiffItem → Option Operation)
    (hf : ∀ it op, f it = some op → Operation.path op = it.path)
    (items : List DiffItem) (p : Path) :
    (items.filterMap f).filter (fun op => decide (op.path = p)) =
      (items.filter (fun x => decide (x.path = p))).filterMap f := by
  induction items with
  | nil => rfl
  | cons hd tl ih =>
      rw [List.filterMap_cons, List.filter_cons]
      cases hf0 : f hd with
      | none =>
          by_cases hp : hd.path = p
          · rw [if_pos (by simp [hp]), List.filterMap_cons, hf0]
            exact ih
          · rw [if_neg (by simp [hp])]
            exact ih
      | some op =>
          have hpath := hf hd op hf0
          by_cases hp : hd.path = p
          · rw [if_pos (by simp [hp]), List.filterMap_cons, hf0,
              List.filter_cons, if_pos (by simp [hpath, hp]), ih]
          · rw [if_neg (by simp [hp]), List.filter_cons,
              if_neg (by simp [hpath, hp]), ih]

theorem planOps_filter_path (o : Options) (items : List DiffItem)
    (hp : items.Pairwise (fun a b => pathLt a.path b.path = true))
    (it : DiffItem) (hit : it ∈ items) :
    (planOps o items).filter (fun op => decide (op.path = it.path)) =
      (createOpFor o it).toList ++ (deleteOpFor o it).toList := by
  rw [planOps, List.filter_append,
    filterMap_filter_path (createOpFor o) (createOpFor_path o) items it.path,
    List.filter_reverse,
    filterMap_filter_path (deleteOpFor o) (deleteOpFor_path o) items it.path,
    filter_path_singleton items hp it hit]
  cases hc : createOpFor o it <;> cases hd : deleteOpFor o it <;>
    simp [List.filterMap_cons, hc, hd]

theorem planOps_filter_path_nil (o : Options) (items : List DiffItem) (p : Path)
    (h : ∀ it ∈ items, ¬ it.path = p) :
    (planOps o items).filter (fun op => decide (op.path = p)) = [] := by
  rw [planOps, List.filter_append,
    filterMap_filter_path (createOpFor o) (createOpFor_path o) items p,
    List.filter_reverse,
    filterMap_filter_path (deleteOpFor o) (deleteOpFor_path o) items p,
    filter_path_nil items p h]
  rfl

theorem run_master (o : Options) (s t : Tree) (hs : sortedTree s)
    (ht : sortedTree t) (hok : noFailed (synchronize o s t).2.records)
    (p : Path) :
    (∀ e, Tree.find s p = some e →
      classify o (some e) (Tree.find (synchronize o s t).1 p) =
        some Classification.EqualInBoth) ∧
      (Tree.find s p = none →
        Tree.find (synchronize o s t).1 p = none ∨
          (o.delete_extraneous = false ∧
            Tree.find (synchronize o s t).1 p = Tree.find t p)) := by
  have hitems : (mergeItems s t).Pairwise
      (fun a b => pathLt a.path b.path = true) := mergeItems_sorted s t hs ht
  have hrecs : (synchronize o s t).2.records =
      (execOps o none false t (planOps o (mergeItems s t))).2 ++
        suppressedRecords o (mergeItems s t) := rfl
  have hfinal : (synchronize o s t).1 =
      (execOps o none false t (planOps o (mergeItems s t))).1 := rfl
  have hnf : ∀ r ∈ (execOps o none false t (planOps o (mergeItems s t))).2,
      r.2 ≠ OpResult.Failed := by
    intro r hr
    exact hok r (hrecs ▸ List.mem_append_left _ hr)
  have hE1 := execOps_success_find o p (planOps o (mergeItems s t)) t hnf
  constructor
  · intro e hsp
    obtain ⟨it, hit, hitp⟩ :=
      mergeItems_total s t p (Or.inl (by rw [hsp]; simp))
    obtain ⟨hsrc, htgt, _⟩ := mergeItems_spec s t hs ht it hit
    rw [hitp] at hsrc htgt
    rw [hsp] at hsrc
    have hfilter := planOps_filter_path o (mergeItems s t) hitems it hit
    rw [hitp] at hfilter
    rw [hfilter] at hE1
    cases htp : Tree.find t p with
    | none =>
        rw [htp] at htgt
        have hcl : classify o it.src it.tgt =
            some Classification.OnlyInSource := by
          rw [hsrc, htgt]
          rfl
        have hco : createOpFor o it = some (mkCreateOp it.path e) := by
          unfold createOpFor
          rw [hcl, hsrc]
        have hdo : deleteOpFor o it = none := by
          unfold deleteOpFor
          rw [hcl, htgt]
        rw [hco, hdo] at hE1
        have hlist : (some (mkCreateOp it.path e)).toList ++
            (none : Option Operation).toList = [mkCreateOp it.path e] := rfl
        rw [hlist, htp,
          applyChain_cons_ok _ _ _ _ (applyAt_create_none it.path e),
          applyChain_nil] at hE1
        injection hE1 with hv
        rw [hfinal, ← hv]
        exact classify_refl o e
    | some f =>
        rw [htp] at htgt
        by_cases hk : e.kind = f.kind
        · by_cases hcs : contentSame o e f = true
          · by_cases hms : metadataSame o e f = true
            · have hcl : classify o it.src it.tgt =
                  some Classification.EqualInBoth := by
                rw [hsrc, htgt]
                simp [classify, hk, hcs, hms]
              have hco : createOpFor o it = none := by
                unfold createOpFor
                rw [hcl, hsrc]
              have hdo : deleteOpFor o it = none := by
                unfold deleteOpFor
                rw [hcl, htgt]
              rw [hco, hdo] at hE1
              have hlist : (none : Option Operation).toList ++
                  (none : Option Operation).toList = ([] : List Operation) := rfl
              rw [hlist, applyChain_nil] at hE1
              injection hE1 with hv
              rw [hfinal, ← hv, htp]
              simp [classify, hk, hcs, hms]
            · have hms2 : metadataSame o e f = false :=
                Bool.not_eq_true _ ▸ eq_false_of_ne_true hms
              have hcl : classify o it.src it.tgt =
                  some Classification.DifferInMetadataOnly := by
                rw [hsrc, htgt]
                simp [classify, hk, hcs, hms2]
              have hco : createOpFor o it =
                  some (Operation.SetPermissions it.path e.modified
                    e.permissions) := by
                unfold createOpFor
                rw [hcl, hsrc]
              have hdo : deleteOpFor o it = none := by
                unfold deleteOpFor
                rw [hcl, htgt]
              rw [hco, hdo] at hE1
              have hlist : (some (Operation.SetPermissions it.path e.modified
                  e.permissions)).toList ++
                  (none : Option Operation).toList =
                  [Operation.SetPermissions it.path e.modified e.permissions] :=
                rfl
              rw [hlist, htp,
                applyChain_cons_ok _ _ _ _
                  (applyAt_set_meta it.path e.modified e.permissions f),
                applyChain_nil] at hE1
              injection hE1 with hv
              rw [hfinal, ← hv]
              exact classify_after_set o e f hk hcs
          · have hcs2 : contentSame o e f = false :=
              eq_false_of_ne_true hcs
            have hnd : e.kind ≠ EntryKind.directory := by
              intro hh
              rw [contentSame_of_dir o e f hh] at hcs2
              cases hcs2
            have hcl : classify o it.src it.tgt =
                some Classification.DifferInContent := by
              rw [hsrc, htgt]
              simp [classify, hk, hcs2]
            have hco : createOpFor o it = some (mkUpdateOp it.path e) := by
              unfold createOpFor
              rw [hcl, hsrc]
            have hdo : deleteOpFor o it = none := by
              unfold deleteOpFor
              rw [hcl, htgt]
            rw [hco, hdo] at hE1
            have hlist : (some (mkUpdateOp it.path e)).toList ++
                (none : Option Operation).toList = [mkUpdateOp it.path e] := rfl
            rw [hlist, htp,
              applyChain_cons_ok _ _ _ _
                (applyAt_update it.path e f hk.symm hnd),
              applyChain_nil] at hE1
            injection hE1 with hv
            rw [hfinal, ← hv]
            exact classify_refl o e
        · have hcl : classify o it.src it.tgt =
              some Classification.DifferInType := by
            rw [hsrc, htgt]
            simp [classify, hk]
          have hco : createOpFor o it = some (mkCreateOp it.path e) := by
            unfold createOpFor
            rw [hcl, hsrc]
          have hdo : deleteOpFor o it = some (mkDeleteOp it.path f) := by
            unfold deleteOpFor
            rw [hcl, htgt]
          rw [hco, hdo] at hE1
          have hlist : (some (mkCreateOp it.path e)).toList ++
              (some (mkDeleteOp it.path f)).toList =
              [mkCreateOp it.path e, mkDeleteOp it.path f] := rfl
          rw [hlist, htp,
            applyChain_cons_fail _ _ _ (applyAt_create_some it.path e f)] at hE1
          cases hE1
  · intro hsp
    cases htp : Tree.find t p with
    | none =>
        have hnone : ∀ it ∈ mergeItems s t, ¬ it.path = p := by
          intro it hit hp2
          obtain ⟨hsrc, htgt, hne⟩ := mergeItems_spec s t hs ht it hit
          rw [hp2] at hsrc htgt
          rw [hsp] at hsrc
          rw [htp] at htgt
          rcases hne with hne | hne
          · exact hne hsrc
          · exact hne htgt
        have hfil := planOps_filter_path_nil o (mergeItems s t) p hnone
        rw [hfinal, execOps_find_untouched o p _ none false t hfil, htp]
        exact Or.inl rfl
    | some f =>
        obtain ⟨it, hit, hitp⟩ :=
          mergeItems_total s t p (Or.inr (by rw [htp]; simp))
        obtain ⟨hsrc, htgt, _⟩ := mergeItems_spec s t hs ht it hit
        rw [hitp] at hsrc htgt
        rw [hsp] at hsrc
        rw [htp] at htgt
        have hcl : classify o it.src it.tgt =
            some Classification.OnlyInTarget := by
          rw [hsrc, htgt]
          rfl
        have hfilter := planOps_filter_path o (mergeItems s t) hitems it hit
        rw [hitp] at hfilter
        rw [hfilter] at hE1
        have hco : createOpFor o it = none := by
          unfold createOpFor
          rw [hcl, hsrc]
        by_cases hdel : o.delete_extraneous = true
        · have hdo : deleteOpFor o it = some (mkDeleteOp it.path f) := by
            unfold deleteOpFor
            rw [hcl, htgt]
            simp [hdel]
          rw [hco, hdo] at hE1
          have hlist : (none : Option Operation).toList ++
              (some (mkDeleteOp it.path f)).toList = [mkDeleteOp it.path f] :=
            rfl
          rw [hlist, htp,
            applyChain_cons_ok _ _ _ _ (applyAt_delete it.path f),
            applyChain_nil] at hE1
          injection hE1 with hv
          rw [hfinal, ← hv]
          exact Or.inl rfl
        · have hdel2 : o.delete_extraneous = false := eq_false_of_ne_true hdel
          have hdo : deleteOpFor o it = none := by
            unfold deleteOpFor
            rw [hcl, htgt]
            simp [hdel2]
          rw [hco, hdo] at hE1
          have hlist : (none : Option Operation).toList ++
              (none : Option Operation).toList = ([] : List Operation) := rfl
          rw [hlist, applyChain_nil] at hE1
          injection hE1 with hv
          rw [hfinal, ← hv, htp]
          exact Or.inr ⟨hdel2, rfl⟩

/-! ### Claims C5, C6, C7, C8, C9 -/

theorem createOpFor_none_src (o : Options) (it : DiffItem) (h : it.src = none) :
    createOpFor o it = none := by
  unfold createOpFor
  cases htv : it.tgt with
  | none =>
      simp only [h, htv]
      rfl
  | some f =>
      simp only [h, htv]
      rfl

theorem suppressedRecords_skipped (o : Options) (items : List DiffItem) :
    ∀ r ∈ suppressedRecords o items, r.2 = OpResult.Skipped := by
  intro r hr
  obtain ⟨it, hit, hf⟩ := List.mem_filterMap.mp hr
  split at hf
  · split at hf
    · cases hf
    · cases hf
      rfl
  · cases hf

/-- C6: after a successful run with `delete_extraneous = true`, every
relative path of the source tree has an entry of matching kind and content
in the final target tree, and no path absent from the source remains in the
target. -/
theorem synchronize_completeness (o : Options) (s t : Tree)
    (hs : sortedTree s) (ht : sortedTree t)
    (hdel : o.delete_extraneous = true)
    (hok : noFailed (synchronize o s t).2.records) :
    ∀ p : Path,
      (∀ e, Tree.find s p = some e →
        ∃ f, Tree.find (synchronize o s t).1 p = some f ∧
          f.kind = e.kind ∧ contentSame o e f = true) ∧
      (Tree.find s p = none → Tree.find (synchronize o s t).1 p = none) := by
  intro p
  obtain ⟨h1, h2⟩ := run_master o s t hs ht hok p
  constructor
  · intro e he
    exact classify_equal_elim o e _ (h1 e he)
  · intro hnone
    rcases h2 hnone with h | h
    · exact h
    · rw [h.1] at hdel
      cases hdel

/-- C7: with `delete_extraneous = false`, every target-only entry survives
the run unchanged, and its suppressed deletion is recorded as Skipped. -/
theorem no_delete_preserves (o : Options) (s t : Tree)
    (hs : sortedTree s) (ht : sortedTree t)
    (hdel : o.delete_extraneous = false) :
    ∀ (p : Path) (f : EntryData),
      Tree.find t p = some f → Tree.find s p = none →
      Tree.find (synchronize o s t).1 p = some f ∧
        (mkDeleteOp p f, OpResult.Skipped) ∈ (synchronize o s t).2.records := by
  intro p f htp hsp
  obtain ⟨it, hit, hitp⟩ := mergeItems_total s t p (Or.inr (by rw [htp]; simp))
  obtain ⟨hsrc, htgt, _⟩ := mergeItems_spec s t hs ht it hit
  rw [hitp] at hsrc htgt
  rw [hsp] at hsrc
  rw [htp] at htgt
  have hcl : classify o it.src it.tgt = some Classification.OnlyInTarget := by
    rw [hsrc, htgt]
    rfl
  have hco : createOpFor o it = none := createOpFor_none_src o it hsrc
  have hdo : deleteOpFor o it = none := by
    unfold deleteOpFor
    rw [hcl, htgt]
    simp [hdel]
  have hitems := mergeItems_sorted s t hs ht
  have hfilter := planOps_filter_path o (mergeItems s t) hitems it hit
  rw [hitp, hco, hdo] at hfilter
  have hfilter2 : (planOps o (mergeItems s t)).filter
      (fun op => decide (op.path = p)) = [] := hfilter.trans rfl
  constructor
  · have hu := execOps_find_untouched o p (planOps o (mergeItems s t))
      none false t hfilter2
    have hfinal : (synchronize o s t).1 =
        (execOps o none false t (planOps o (mergeItems s t))).1 := rfl
    rw [hfinal, hu, htp]
  · have hmem : (mkDeleteOp it.path f, OpResult.Skipped) ∈
        suppressedRecords o (mergeItems s t) := by
      apply List.mem_filterMap.mpr
      refine ⟨it, hit, ?_⟩
      show (match classify o it.src it.tgt, it.tgt with
        | some Classification.OnlyInTarget, some f =>
            if o.delete_extraneous = true then none
            else some (mkDeleteOp it.path f, OpResult.Skipped)
        | _, _ => none) = some (mkDeleteOp it.path f, OpResult.Skipped)
      rw [hcl, htgt]
      simp [hdel]
    have hrecs : (synchronize o s t).2.records =
        (execOps o none false t (planOps o (mergeItems s t))).2 ++
          suppressedRecords o (mergeItems s t) := rfl
    rw [hitp] at hmem
    rw [hrecs]
    exact List.mem_append_right _ hmem

/-- Counterexample to C5 as stated: on a source holding a directory where
the target holds a file (a DifferInType path), the first run fails its
creation step, and the second run still produces a non-skip operation. -/
theorem synchronize_idempotent_counterexample :
    sortedTree [(([0] : Path), ⟨.directory, 0, 0, 100, 7⟩)] ∧
      sortedTree [(([0] : Path), ⟨.file, 10, 1, 100, 6⟩)] ∧
      countNonSkip (synchronize {}
        [(([0] : Path), ⟨.directory, 0, 0, 100, 7⟩)]
        (synchronize {} [(([0] : Path), ⟨.directory, 0, 0, 100, 7⟩)]
          [(([0] : Path), ⟨.file, 10, 1, 100, 6⟩)]).1).2.records ≠ 0 := by
  refine ⟨by decide, by decide, by decide⟩

/-- C5 (amended): when the first run reports no failures, running
`synchronize` again with the same options yields a Run Outcome with zero
non-skip operations. -/
theorem synchronize_idempotent (o : Options) (s t : Tree)
    (hs : sortedTree s) (ht : sortedTree t)
    (hok : noFailed (synchronize o s t).2.records) :
    countNonSkip (synchronize o s (synchronize o s t).1).2.records = 0 := by
  have ht1 : sortedTree (synchronize o s t).1 :=
    execOps_sorted o (planOps o (mergeItems s t)) none false t ht
  have hcr : (mergeItems s (synchronize o s t).1).filterMap (createOpFor o) =
      [] := by
    rw [List.filterMap_eq_nil_iff]
    intro it hit
    obtain ⟨hsrc, htgt, hne⟩ := mergeItems_spec s (synchronize o s t).1 hs ht1 it hit
    cases hsp : Tree.find s it.path with
    | some e =>
        have hcl := (run_master o s t hs ht hok it.path).1 e hsp
        obtain ⟨f, hveq, _, _⟩ := classify_equal_elim o e _ hcl
        rw [hveq] at hcl htgt
        rw [hsp] at hsrc
        unfold createOpFor
        rw [hsrc, htgt, hcl]
    | none =>
        rw [hsp] at hsrc
        exact createOpFor_none_src o it hsrc
  have hdl : (mergeItems s (synchronize o s t).1).filterMap (deleteOpFor o) =
      [] := by
    rw [List.filterMap_eq_nil_iff]
    intro it hit
    obtain ⟨hsrc, htgt, hne⟩ := mergeItems_spec s (synchronize o s t).1 hs ht1 it hit
    cases hsp : Tree.find s it.path with
    | some e =>
        have hcl := (run_master o s t hs ht hok it.path).1 e hsp
        obtain ⟨f, hveq, _, _⟩ := classify_equal_elim o e _ hcl
        rw [hveq] at hcl htgt
        rw [hsp] at hsrc
        unfold deleteOpFor
        rw [hsrc, htgt, hcl]
    | none =>
        rcases (run_master o s t hs ht hok it.path).2 hsp with h1 | h1
        · rw [hsp] at hsrc
          rw [h1] at htgt
          rcases hne with hne | hne
          · exact absurd hsrc hne
          · exact absurd htgt hne
        · obtain ⟨hdel, _⟩ := h1
          rw [hsp] at hsrc
          cases htv : Tree.find (synchronize o s t).1 it.path with
          | none =>
              rw [htv] at htgt
              rcases hne with hne | hne
              · exact absurd hsrc hne
              · exact absurd htgt hne
          | some f =>
              rw [htv] at htgt
              unfold deleteOpFor
              rw [hsrc, htgt]
              simp only [hdel]
              rfl
  have hplan : planOps o (mergeItems s (synchronize o s t).1) = [] := by
    rw [planOps, hcr, hdl]
    rfl
  have hrecs : (synchronize o s (synchronize o s t).1).2.records =
      (execOps o none false (synchronize o s t).1
          (planOps o (mergeItems s (synchronize o s t).1))).2 ++
        suppressedRecords o (mergeItems s (synchronize o s t).1) := rfl
  rw [hrecs, hplan]
  have hexec : (execOps o none false (synchronize o s t).1
      ([] : List Operation)).2 = [] := rfl
  rw [hexec, List.nil_append]
  unfold countNonSkip
  rw [List.length_eq_zero, List.filter_eq_nil_iff]
  intro r hr
  rw [suppressedRecords_skipped o _ r hr]
  simp

theorem copyWrites_invariant : ∀ (rest : List Nat) (fs : CopyFs) (acc : List Nat),
    fs.temp = some acc →
    ∀ st ∈ List.scanl stepFs fs
      (rest.map CopyStep.writeChunk ++ [CopyStep.renameIntoPlace]),
      st.dest = fs.dest ∨ st.dest = some (acc ++ rest) := by
  intro rest
  induction rest with
  | nil =>
      intro fs acc htemp st hst
      rw [List.map_nil, List.nil_append, List.scanl_cons] at hst
      rcases List.mem_cons.mp hst with h | h
      · subst h
        exact Or.inl rfl
      · rw [List.scanl_nil] at h
        rcases List.mem_singleton.mp h with h
        subst h
        right
        show fs.temp = some (acc ++ [])
        rw [htemp, List.append_nil]
  | cons c rest ih =>
      intro fs acc htemp st hst
      rw [List.map_cons, List.cons_append, List.scanl_cons] at hst
      rcases List.mem_cons.mp hst with h | h
      · subst h
        exact Or.inl rfl
      · have htemp2 : (stepFs fs (CopyStep.writeChunk c)).temp =
            some (acc ++ [c]) := by
          show fs.temp.map (fun l => l ++ [c]) = some (acc ++ [c])
          rw [htemp]
          rfl
        rcases ih (stepFs fs (CopyStep.writeChunk c)) (acc ++ [c]) htemp2 st h
          with h2 | h2
        · exact Or.inl h2
        · right
          rw [h2, List.append_assoc]
          rfl

theorem copyFold_result : ∀ (rest : List Nat) (fs : CopyFs) (acc : List Nat),
    fs.temp = some acc →
    List.foldl stepFs fs
        (rest.map CopyStep.writeChunk ++ [CopyStep.renameIntoPlace]) =
      ⟨some (acc ++ rest), none⟩ := by
  intro rest
  induction rest with
  | nil =>
      intro fs acc htemp
      rw [List.map_nil, List.nil_append, List.foldl_cons, List.foldl_nil]
      show (⟨fs.temp, none⟩ : CopyFs) = ⟨some (acc ++ []), none⟩
      rw [htemp, List.append_nil]
  | cons c rest ih =>
      intro fs acc htemp
      rw [List.map_cons, List.cons_append, List.foldl_cons]
      have htemp2 : (stepFs fs (CopyStep.writeChunk c)).temp =
          some (acc ++ [c]) := by
        show fs.temp.map (fun l => l ++ [c]) = some (acc ++ [c])
        rw [htemp]
        rfl
      rw [ih (stepFs fs (CopyStep.writeChunk c)) (acc ++ [c]) htemp2,
        List.append_assoc]
      rfl

/-- C8: a file copy is atomic from the target side — in every state reachable
during the copy, the destination holds either its original content or the
full new content, never a partial write; and the uninterrupted copy ends with
the full content renamed into place. -/
theorem copy_atomic (orig : Option (List Nat)) (chunks : List Nat) :
    (∀ st ∈ copyTrace orig chunks, st.dest = orig ∨ st.dest = some chunks) ∧
      (copyResult orig chunks).dest = some chunks := by
  constructor
  · intro st hst
    rw [copyTrace, copySteps, List.scanl_cons] at hst
    rcases List.mem_cons.mp hst with h | h
    · subst h
      exact Or.inl rfl
    · have := copyWrites_invariant chunks
        (stepFs ⟨orig, none⟩ CopyStep.createTemp) [] rfl st h
      rcases this with h2 | h2
      · exact Or.inl h2
      · rw [List.nil_append] at h2
        exact Or.inr h2
  · rw [copyResult, copySteps, List.foldl_cons]
    rw [copyFold_result chunks (stepFs ⟨orig, none⟩ CopyStep.createTemp) [] rfl]
    rfl

/-- C9: only a missing root (RootNotFound) or a cancellation halts a run;
per-operation failures are recorded and execution continues, except under
`fail_fast`, where everything after the first failure is recorded as
Skipped, as is everything after a cancellation point. -/
theorem error_policy :
    (∀ (o : Options) (fuel : Option Nat) (s t : Tree) (ds dt : List Path),
      synchronizeR o fuel (some s) (some t) ds dt =
        Except.ok (runEngine o fuel s t ds dt)) ∧
      (∀ (o : Options) (fuel : Option Nat) (srcRoot tgtRoot : Option Tree)
          (ds dt : List Path), srcRoot = none ∨ tgtRoot = none →
        synchronizeR o fuel srcRoot tgtRoot ds dt =
          Except.error SyncError.RootNotFound) ∧
      (∀ (o : Options) (t : Tree) (ops : List Operation), o.fail_fast = false →
        (execOps o none false t ops).2.map Prod.fst = ops ∧
          ∀ r ∈ (execOps o none false t ops).2, r.2 ≠ OpResult.Skipped) ∧
      (∀ (o : Options) (t : Tree) (ops : List Operation)
          (l₁ l₂ : List (Operation × OpResult)) (a : Operation),
        o.fail_fast = true →
        (execOps o none false t ops).2 = l₁ ++ (a, OpResult.Failed) :: l₂ →
        ∀ r ∈ l₂, r.2 = OpResult.Skipped) ∧
      (∀ (o : Options) (t : Tree) (ops : List Operation) (n : Nat),
        ∀ r ∈ (execOps o (some n) false t ops).2.drop n,
          r.2 = OpResult.Skipped) := by
  refine ⟨fun o fuel s t ds dt => rfl, ?_, ?_, ?_, ?_⟩
  · intro o fuel srcRoot tgtRoot ds dt h
    rcases h with h | h
    · subst h
      rfl
    · subst h
      cases srcRoot <;> rfl
  · intro o t ops hff
    exact ⟨execOps_map_fst o ops none false t,
      execOps_no_skip o hff ops false t⟩
  · intro o t ops l₁ l₂ a hff heq
    exact execOps_halt_after_failure o hff ops none false t l₁ l₂ a heq
  · intro o t ops n
    exact execOps_cancel_skips o ops n false t

/-- Witness for C6 on a concrete source and target with a copy, a directory
creation and an extraneous deletion. -/
theorem synchronize_completeness_witness :
    sortedTree [(([0] : Path), ⟨.directory, 0, 0, 100, 7⟩),
        ([0, 1], ⟨.file, 10, 1, 100, 6⟩)] ∧
      sortedTree [(([2] : Path), ⟨.file, 10, 2, 100, 6⟩)] ∧
      ({} : Options).delete_extraneous = true ∧
      noFailed (synchronize {}
        [(([0] : Path), ⟨.directory, 0, 0, 100, 7⟩),
          ([0, 1], ⟨.file, 10, 1, 100, 6⟩)]
        [(([2] : Path), ⟨.file, 10, 2, 100, 6⟩)]).2.records ∧
      ∀ p : Path,
        (∀ e, Tree.find [(([0] : Path), ⟨.directory, 0, 0, 100, 7⟩),
            ([0, 1], ⟨.file, 10, 1, 100, 6⟩)] p = some e →
          ∃ f, Tree.find (synchronize {}
            [(([0] : Path), ⟨.directory, 0, 0, 100, 7⟩),
              ([0, 1], ⟨.file, 10, 1, 100, 6⟩)]
            [(([2] : Path), ⟨.file, 10, 2, 100, 6⟩)]).1 p = some f ∧
            f.kind = e.kind ∧ contentSame {} e f = true) ∧
        (Tree.find [(([0] : Path), ⟨.directory, 0, 0, 100, 7⟩),
            ([0, 1], ⟨.file, 10, 1, 100, 6⟩)] p = none →
          Tree.find (synchronize {}
            [(([0] : Path), ⟨.directory, 0, 0, 100, 7⟩),
              ([0, 1], ⟨.file, 10, 1, 100, 6⟩)]
            [(([2] : Path), ⟨.file, 10, 2, 100, 6⟩)]).1 p = none) :=
  ⟨by decide, by decide, rfl, by decide,
    synchronize_completeness {}
      [(([0] : Path), ⟨.directory, 0, 0, 100, 7⟩),
        ([0, 1], ⟨.file, 10, 1, 100, 6⟩)]
      [(([2] : Path), ⟨.file, 10, 2, 100, 6⟩)]
      (by decide) (by decide) rfl (by decide)⟩

/-- Witness for C7 on a concrete target-only file under `--no-delete`. -/
theorem no_delete_preserves_witness :
    sortedTree ([] : Tree) ∧
      sortedTree [(([3] : Path), ⟨.file, 10, 5, 100, 6⟩)] ∧
      ({ delete_extraneous := false } : Options).delete_extraneous = false ∧
      Tree.find [(([3] : Path), ⟨.file, 10, 5, 100, 6⟩)] [3] =
        some ⟨.file, 10, 5, 100, 6⟩ ∧
      Tree.find ([] : Tree) [3] = none ∧
      (Tree.find (synchronize { delete_extraneous := false } []
          [(([3] : Path), ⟨.file, 10, 5, 100, 6⟩)]).1 [3] =
          some ⟨.file, 10, 5, 100, 6⟩ ∧
        (mkDeleteOp [3] ⟨.file, 10, 5, 100, 6⟩, OpResult.Skipped) ∈
          (synchronize { delete_extraneous := false } []
            [(([3] : Path), ⟨.file, 10, 5, 100, 6⟩)]).2.records) :=
  ⟨by decide, by decide, rfl, by decide, by decide,
    no_delete_preserves { delete_extraneous := false } []
      [(([3] : Path), ⟨.file, 10, 5, 100, 6⟩)]
      (by decide) (by decide) rfl [3] ⟨.file, 10, 5, 100, 6⟩
      (by decide) (by decide)⟩

/-- Witness for the amended C5 on a concrete run that succeeds. -/
theorem synchronize_idempotent_witness :
    sortedTree [(([0] : Path), ⟨.file, 10, 1, 100, 6⟩)] ∧
      sortedTree ([] : Tree) ∧
      noFailed (synchronize {}
        [(([0] : Path), ⟨.file, 10, 1, 100, 6⟩)] []).2.records ∧
      countNonSkip (synchronize {}
        [(([0] : Path), ⟨.file, 10, 1, 100, 6⟩)]
        (synchronize {}
          [(([0] : Path), ⟨.file, 10, 1, 100, 6⟩)] []).1).2.records = 0 :=
  ⟨by decide, by decide, by decide,
    synchronize_idempotent {} [(([0] : Path), ⟨.file, 10, 1, 100, 6⟩)] []
      (by decide) (by decide) (by decide)⟩

/-- Witness for C8: a mid-write state of a concrete copy still shows the old
destination content, and the finished copy shows the new content. -/
theorem copy_atomic_witness :
    (⟨some [9], some [1]⟩ : CopyFs) ∈ copyTrace (some [9]) [1, 2] ∧
      ((⟨some [9], some [1]⟩ : CopyFs).dest = some [9] ∨
        (⟨some [9], some [1]⟩ : CopyFs).dest = some [1, 2]) ∧
      (copyResult (some [9]) [1, 2]).dest = some [1, 2] :=
  ⟨by decide, (copy_atomic (some [9]) [1, 2]).1 ⟨some [9], some [1]⟩ (by decide),
    (copy_atomic (some [9]) [1, 2]).2⟩

/-- Witness for C9 on concrete runs: a missing root, a best-effort run with
no skips, a fail-fast run skipping after its first failure, and a cancelled
run skipping everything. -/
theorem error_policy_witness :
    synchronizeR {} none none (some []) [] [] =
        Except.error SyncError.RootNotFound ∧
      (({} : Options).fail_fast = false ∧
        ((execOps {} none false []
            [Operation.CopyFile [0] ⟨.file, 10, 1, 100, 6⟩]).2.map Prod.fst =
          [Operation.CopyFile [0] ⟨.file, 10, 1, 100, 6⟩] ∧
        ∀ r ∈ (execOps {} none false []
            [Operation.CopyFile [0] ⟨.file, 10, 1, 100, 6⟩]).2,
          r.2 ≠ OpResult.Skipped)) ∧
      (({ fail_fast := true } : Options).fail_fast = true ∧
        (execOps { fail_fast := true } none false []
            [Operation.UpdateFile [0] ⟨.file, 10, 1, 100, 6⟩,
              Operation.CopyFile [1] ⟨.file, 10, 1, 100, 6⟩]).2 =
          [] ++ (Operation.UpdateFile [0] ⟨.file, 10, 1, 100, 6⟩,
              OpResult.Failed) ::
            [(Operation.CopyFile [1] ⟨.file, 10, 1, 100, 6⟩,
              OpResult.Skipped)] ∧
        ∀ r ∈ [(Operation.CopyFile [1] ⟨.file, 10, 1, 100, 6⟩,
            OpResult.Skipped)], r.2 = OpResult.Skipped) ∧
      (∀ r ∈ (execOps {} (some 0) false []
          [Operation.CopyFile [0] ⟨.file, 10, 1, 100, 6⟩]).2.drop 0,
        r.2 = OpResult.Skipped) :=
  ⟨error_policy.2.1 {} none none (some []) [] [] (Or.inl rfl),
    ⟨rfl, error_policy.2.2.1 {} []
      [Operation.CopyFile [0] ⟨.file, 10, 1, 100, 6⟩] rfl⟩,
    ⟨rfl, by decide,
      error_policy.2.2.2.1 { fail_fast := true } []
        [Operation.UpdateFile [0] ⟨.file, 10, 1, 100, 6⟩,
          Operation.CopyFile [1] ⟨.file, 10, 1, 100, 6⟩]
        [] [(Operation.CopyFile [1] ⟨.file, 10, 1, 100, 6⟩,
          OpResult.Skipped)]
        (Operation.UpdateFile [0] ⟨.file, 10, 1, 100, 6⟩) rfl (by decide)⟩,
    error_policy.2.2.2.2 {} []
      [Operation.CopyFile [0] ⟨.file, 10, 1, 100, 6⟩] 0⟩

/-! ### Claim C1 -/

/-- C1: the program maps 0 `verbose` occurrences to the quietest level
(`Quite`), 1 to `Terse`, and every count of at least 2 to `Verbose`. -/
theorem verbosityFor_spec :
    verbosityFor 0 = Verbosity.Quite ∧ verbosityFor 1 = Verbosity.Terse ∧
      ∀ n : Nat, 2 ≤ n → verbosityFor n = Verbosity.Verbose := by
  refine ⟨rfl, rfl, ?_⟩
  intro n hn
  match n, hn with
  | n + 2, _ => rfl

/-- Witness for C1 at the concrete counts 0, 1 and 5. -/
theorem verbosityFor_spec_witness :
    (2 ≤ 5) ∧ verbosityFor 5 = Verbosity.Verbose :=
  ⟨by decide, verbosityFor_spec.2.2 5 (by decide)⟩

/-! ### Claim C2 -/

/-- C2: an invocation of the current program with a source path and a target
path only prints lines; the filesystem component of the world — hence every
file, directory and symlink under both paths — is unchanged. -/
theorem mainRun_leaves_fs_unchanged (source target : String)
    (verboseCount : Nat) (w : CliWorld) :
    (mainRun source target verboseCount w).fs = w.fs := rfl

/-! ### Claim C10 -/

/-- C10: `main` panics exactly when the optional `source` or `target` value is
absent, because it unwraps both unconditionally; with both present it runs to
completion. -/
theorem mainChecked_panic_iff (sourceArg targetArg : Option String)
    (verboseCount : Nat) (w : CliWorld) :
    (sourceArg = none ∨ targetArg = none →
        mainChecked sourceArg targetArg verboseCount w = .panicked) ∧
      (∀ s t, sourceArg = some s → targetArg = some t →
        mainChecked sourceArg targetArg verboseCount w =
          .ran (mainRun s t verboseCount w)) := by
  constructor
  · intro h
    match sourceArg, targetArg, h with
    | none, _, _ => rfl
    | some _, none, _ => rfl
  · intro s t hs ht
    subst hs; subst ht
    rfl

/-- Witness for C10: with `target` absent the run panics; with both arguments
present it does not. -/
theorem mainChecked_panic_iff_witness :
    mainChecked (some "a") none 0 ⟨[], []⟩ = CliOutcome.panicked ∧
      mainChecked (some "a") (some "b") 0 ⟨[], []⟩ =
        CliOutcome.ran (mainRun "a" "b" 0 ⟨[], []⟩) :=
  ⟨(mainChecked_panic_iff (some "a") none 0 ⟨[], []⟩).1 (Or.inr rfl),
    (mainChecked_panic_iff (some "a") (some "b") 0 ⟨[], []⟩).2 "a" "b" rfl rfl⟩

end Davsync
